import Mathlib

/-!
# Verification of the RoLang front end

A shallow embedding of the RoLang scripting-language front end:
the token model and keyword table (package `tokens`), the AST node
model with its canonical string rendering (package `ast`), and — since
the lexer and parser sources are not part of the checked tree — a model
of the lexer and the Pratt parser built from the specification's
description of them.  Theorems at the end settle the frozen claims.
-/

set_option maxRecDepth 10000

namespace RoLang

/-! ## Token model (package `tokens`) -/

/-- Source location of a token.  The `tokens` package stores a `SrcLoc`
in every token; its fields are the source name plus line and column. -/
structure SrcLoc where
  source : String
  line : Nat
  column : Nat
deriving Repr, DecidableEq

/-- Token classes, in the order of the `tokens` package's constant block.
`STRING` does not appear in the source enum; it is modelled from the
spec's string-literal scanning (the AST does carry `StringLiteral`). -/
inductive TokenType where
  | ERR
  | EOF
  | IDENT
  | INT
  | FLOAT
  | STRING
  | ASSIGN
  | PLUS
  | MINUS
  | BANG
  | STAR
  | SLASH
  | LT
  | GT
  | EQ
  | NE
  | LE
  | GE
  | COMMA
  | SEMCOL
  | LPAREN
  | RPAREN
  | LBRACE
  | RBRACE
  | FN
  | RET
  | LET
  | TRUE
  | FALSE
  | IF
  | ELSE
deriving Repr, DecidableEq

/-- One lexical unit: location, class and literal text, as in the
`tokens` package's `Token` struct. -/
structure Token where
  loc : SrcLoc
  type : TokenType
  word : String
deriving Repr, DecidableEq

/-- The fixed keyword table of the `tokens` package. -/
def keywords : List (String × TokenType) :=
  [("fn", TokenType.FN),
   ("return", TokenType.RET),
   ("let", TokenType.LET),
   ("true", TokenType.TRUE),
   ("false", TokenType.FALSE),
   ("if", TokenType.IF),
   ("else", TokenType.ELSE)]

/-- `LookUpKeyword` from the `tokens` package: map lookup in the keyword
table, defaulting to `IDENT`. -/
def LookUpKeyword (word : String) : TokenType :=
  match keywords.lookup word with
  | some t => t
  | none => TokenType.IDENT

/-! ## AST node model (package `ast`) -/

/-- `ast.Identifier`: token plus the identifier's text. -/
structure Identifier where
  token : Token
  value : String
deriving Repr, DecidableEq

mutual
/-- `ast.BlockStatement`: brace token plus the owned statement list. -/
inductive BlockStatement where
  | mk (token : Token) (statements : List Stmt)
deriving Repr

/-- The statement variants of package `ast`.  `BlockStatement` is itself
a statement (it implements the `Statement` interface), so it appears
both as a variant here and as the type of structured sub-blocks. -/
inductive Stmt where
  | blockStatement (block : BlockStatement)
  | functionStatement (token : Token) (ident : Identifier) (value : FunctionLiteral)
  | letStatement (token : Token) (ident : Identifier) (initValue : Option Expr)
  | returnStatement (token : Token) (returnValue : Option Expr)
  | expressionStatement (token : Token) (expression : Option Expr)
  | ifStatement (token : Token) (condition : Option Expr)
      (thenBlock : BlockStatement) (elseStmt : Option Stmt)
deriving Repr

/-- The expression variants of package `ast`.  The Go `FloatLiteral`
carries a `float64` value; floating-point semantics is abstracted here
to the literal's text (no claim inspects the numeric value). -/
inductive Expr where
  | identifier (ident : Identifier)
  | integerLiteral (token : Token) (value : Int)
  | floatLiteral (token : Token) (value : String)
  | stringLiteral (token : Token) (value : String)
  | boolLiteral (token : Token) (value : Bool)
  | prefixExpression (token : Token) (operator : String) (right : Expr)
  | infixExpression (token : Token) (operator : String) (left : Expr) (right : Expr)
  | callExpression (token : Token) (callee : Expr) (arguments : List Expr)
  | functionLiteral (lit : FunctionLiteral)
deriving Repr

/-- `ast.FunctionLiteral`: fn token, parameter identifiers, body block. -/
inductive FunctionLiteral where
  | mk (token : Token) (parameters : List Identifier) (body : BlockStatement)
deriving Repr
end

/-- `ast.Program`: the root node, an ordered statement sequence. -/
structure Program where
  statements : List Stmt
deriving Repr

/-- Parameter lists and call arguments are rendered comma-separated,
first element bare, as in `FunctionStatement.String`,
`FunctionLiteral.String` and `CallExpression.String`. -/
def commaJoin (parts : List String) : String :=
  match parts with
  | [] => ""
  | p :: rest => rest.foldl (fun acc q => acc ++ ", " ++ q) p

mutual
/-- `String()` of statements, following each variant's method in
`ast.go` literally (including `IfStatement.String`, which renders only
the then/else parts and never the condition). -/
def stmtString : Stmt → String
  | .blockStatement b => blockString b
  | .functionStatement _ ident value =>
      match value with
      | .mk _ parameters body =>
          "fn " ++ ident.value ++ "(" ++ commaJoin (identStrings parameters) ++ ") "
            ++ blockString body
  | .letStatement _ ident initValue =>
      match initValue with
      | some e => "let " ++ ident.value ++ " = " ++ exprString e ++ ";"
      | none => "let " ++ ident.value
  | .returnStatement _ returnValue =>
      match returnValue with
      | some e => "return " ++ exprString e ++ ";"
      | none => "return;"
  | .expressionStatement _ expression =>
      match expression with
      | some e => exprString e
      | none => ""
  | .ifStatement _ _ thenBlock elseStmt =>
      "if " ++ blockString thenBlock ++
        match elseStmt with
        | some s => "else " ++ stmtString s
        | none => ""

/-- `BlockStatement.String`. -/
def blockString : BlockStatement → String
  | .mk _ statements => "\x7b " ++ stmtsString statements ++ " \x7d"

/-- In-order concatenation of statement renderings, as the `for` loops
of `Program.String` and `BlockStatement.String` produce it. -/
def stmtsString : List Stmt → String
  | [] => ""
  | s :: rest => stmtString s ++ stmtsString rest

/-- `String()` of expressions, one case per method in `ast.go`. -/
def exprString : Expr → String
  | .identifier ident => ident.value
  | .integerLiteral token _ => token.word
  | .floatLiteral token _ => token.word
  | .stringLiteral token _ => "\"" ++ token.word ++ "\""
  | .boolLiteral token _ => token.word
  | .prefixExpression _ operator right => "(" ++ operator ++ exprString right ++ ")"
  | .infixExpression _ operator left right =>
      "(" ++ exprString left ++ " " ++ operator ++ " " ++ exprString right ++ ")"
  | .callExpression _ callee arguments =>
      exprString callee ++ "(" ++ commaJoin (exprStrings arguments) ++ ")"
  | .functionLiteral lit => functionLiteralString lit

/-- `FunctionLiteral.String`. -/
def functionLiteralString : FunctionLiteral → String
  | .mk _ parameters body =>
      "fn (" ++ commaJoin (identStrings parameters) ++ ") " ++ blockString body

/-- Renderings of the elements of an expression list. -/
def exprStrings : List Expr → List String
  | [] => []
  | e :: rest => exprString e :: exprStrings rest

/-- `Identifier.String` is the identifier's value; this maps it over a
parameter list. -/
def identStrings : List Identifier → List String
  | [] => []
  | i :: rest => i.value :: identStrings rest
end

/-- `Program.String`: concatenation of the statements' renderings. -/
def programString (p : Program) : String :=
  stmtsString p.statements

/-- `Program.TokenWord`: same concatenation, but guarded by a length
check that returns `""` for an empty program. -/
def programTokenWord (p : Program) : String :=
  if p.statements.length > 0 then stmtsString p.statements else ""

/-! ## Lexer

Modelled from the spec: the repository's `lexer` package is not in the
checked tree; the scanner below follows §4.1 of the specification —
whitespace skipping with line/column tracking, two-character operator
lookahead, maximal identifier/keyword and digit runs, float
continuation after a single dot with a second dot a scan error,
verbatim string capture, and an ERR token (advancing one character) on
an unknown byte. -/

def isWhitespaceCh (c : Char) : Bool :=
  c = ' ' || c = '\t' || c = '\r' || c = '\n'

def isDigitCh (c : Char) : Bool :=
  48 ≤ c.toNat && c.toNat ≤ 57

def isLetterCh (c : Char) : Bool :=
  (97 ≤ c.toNat && c.toNat ≤ 122) || (65 ≤ c.toNat && c.toNat ≤ 90)

/-- First character of an identifier: a letter or underscore. -/
def isIdentStartCh (c : Char) : Bool :=
  isLetterCh c || c.toNat = 95

/-- Continuation character of an identifier: alphanumeric or underscore. -/
def isIdentCh (c : Char) : Bool :=
  isLetterCh c || isDigitCh c || c.toNat = 95

/-- Build the token the scanner produces at a given position. -/
def mkTok (name : String) (line column : Nat) (t : TokenType) (w : String) : Token :=
  { loc := { source := name, line := line, column := column }, type := t, word := w }

/-- Two-character operator lookahead (§4.1): falls back to `none` when
the follow-up character does not match. -/
def twoCharOp : Char → List Char → Option (TokenType × String)
  | '=', '=' :: _ => some (TokenType.EQ, "==")
  | '!', '=' :: _ => some (TokenType.NE, "!=")
  | '<', '=' :: _ => some (TokenType.LE, "<=")
  | '>', '=' :: _ => some (TokenType.GE, ">=")
  | _, _ => none

/-- Single-character punctuation, operators and brackets (§4.1). -/
def oneCharOp : Char → Option TokenType
  | '=' => some TokenType.ASSIGN
  | '+' => some TokenType.PLUS
  | '-' => some TokenType.MINUS
  | '!' => some TokenType.BANG
  | '*' => some TokenType.STAR
  | '/' => some TokenType.SLASH
  | '<' => some TokenType.LT
  | '>' => some TokenType.GT
  | ',' => some TokenType.COMMA
  | ';' => some TokenType.SEMCOL
  | '(' => some TokenType.LPAREN
  | ')' => some TokenType.RPAREN
  | '{' => some TokenType.LBRACE
  | '}' => some TokenType.RBRACE
  | _ => none

/-- One scanner pass: each step either skips one whitespace character or
scans one complete token; `fuel` dominates the character count. -/
def lexGo (name : String) : Nat → List Char → Nat → Nat → List Token → List Token
  | 0, _, _, _, acc => acc.reverse
  | _ + 1, [], line, column, acc =>
      (mkTok name line column TokenType.EOF "" :: acc).reverse
  | fuel + 1, c :: cs, line, column, acc =>
      if c = '\n' then
        lexGo name fuel cs (line + 1) 1 acc
      else if isWhitespaceCh c then
        lexGo name fuel cs line (column + 1) acc
      else if isDigitCh c then
        let digits := (c :: cs).takeWhile isDigitCh
        let afterInt := (c :: cs).dropWhile isDigitCh
        match afterInt with
        | '.' :: d :: ds =>
          if isDigitCh d then
            let frac := (d :: ds).takeWhile isDigitCh
            let afterFrac := (d :: ds).dropWhile isDigitCh
            let word := digits ++ '.' :: frac
            match afterFrac with
            | '.' :: rest =>
                lexGo name fuel rest line (column + word.length + 1)
                  (mkTok name line column TokenType.ERR (word ++ ['.']).asString :: acc)
            | rest =>
                lexGo name fuel rest line (column + word.length)
                  (mkTok name line column TokenType.FLOAT word.asString :: acc)
          else
            lexGo name fuel afterInt line (column + digits.length)
              (mkTok name line column TokenType.INT digits.asString :: acc)
        | rest =>
            lexGo name fuel rest line (column + digits.length)
              (mkTok name line column TokenType.INT digits.asString :: acc)
      else if isIdentStartCh c then
        let word := (c :: cs).takeWhile isIdentCh
        let rest := (c :: cs).dropWhile isIdentCh
        lexGo name fuel rest line (column + word.length)
          (mkTok name line column (LookUpKeyword word.asString) word.asString :: acc)
      else if c = '"' then
        let inner := cs.takeWhile (fun d => d ≠ '"')
        let rest := cs.dropWhile (fun d => d ≠ '"')
        match rest with
        | '"' :: rest' =>
            lexGo name fuel rest' line (column + inner.length + 2)
              (mkTok name line column TokenType.STRING inner.asString :: acc)
        | _ =>
            lexGo name fuel [] line (column + inner.length + 1)
              (mkTok name line column TokenType.ERR inner.asString :: acc)
      else
        match twoCharOp c cs with
        | some (t, w) =>
            lexGo name fuel cs.tail line (column + 2)
              (mkTok name line column t w :: acc)
        | none =>
          match oneCharOp c with
          | some t =>
              lexGo name fuel cs line (column + 1)
                (mkTok name line column t c.toString :: acc)
          | none =>
              lexGo name fuel cs line (column + 1)
                (mkTok name line column TokenType.ERR c.toString :: acc)

/-- Scan an entire source text into an EOF-terminated token list. -/
def lex (name input : String) : List Token :=
  lexGo name (input.length + 1) input.data 1 1 []

/-! ## Parser

Modelled from the spec: the repository's `parser` package is not in the
checked tree; the functions below follow §4.2–§4.4 of the
specification — statement dispatch by current token class, blocks read
until `}` or EOF, precedence climbing with a class-keyed prefix/infix
rule split, error accumulation without aborting, and recovery that
skips past an offending token so a pass surfaces several problems. -/

/-- Parser state: the remaining (EOF-terminated) token stream and the
ordered diagnostics list. -/
structure PState where
  toks : List Token
  errs : List String
deriving Repr

/-- The token the parser reports past the end of the stream; the lexer
"keeps returning EOF" per §4.1. -/
def eofToken : Token :=
  { loc := { source := "", line := 0, column := 0 }, type := TokenType.EOF, word := "" }

/-- The current token (the lexer keeps returning EOF at the end). -/
def curTok (st : PState) : Token :=
  st.toks.headD eofToken

/-- Advance the current-token cursor. -/
def advTok (st : PState) : PState :=
  { st with toks := st.toks.tail }

/-- Append one diagnostic (offending location plus message), keeping
order of discovery. -/
def addErr (st : PState) (tok : Token) (msg : String) : PState :=
  { st with
    errs := st.errs ++
      [tok.loc.source ++ ":" ++ toString tok.loc.line ++ ":" ++
        toString tok.loc.column ++ ": " ++ msg] }

/-! Precedence levels, low to high (§4.3):
`NONE < EQUALS < COMPARE < SUM < PRODUCT < PRE < CALL`
(`PRE` is the spec's unary-operator level). -/

def NONE : Nat := 0
def EQUALS : Nat := 1
def COMPARE : Nat := 2
def SUM : Nat := 3
def PRODUCT : Nat := 4
def PRE : Nat := 5
def CALL : Nat := 6

/-- Infix binding power of a token class; classes without an infix rule
(including `<=`/`>=`, absent from the spec's table) sit at `NONE`. -/
def infixPrecOf : TokenType → Nat
  | TokenType.EQ => EQUALS
  | TokenType.NE => EQUALS
  | TokenType.LT => COMPARE
  | TokenType.GT => COMPARE
  | TokenType.PLUS => SUM
  | TokenType.MINUS => SUM
  | TokenType.STAR => PRODUCT
  | TokenType.SLASH => PRODUCT
  | TokenType.LPAREN => CALL
  | _ => NONE

/-- Token classes owning a prefix parse rule (§4.3 step 1). -/
def hasPrefixRule : TokenType → Bool
  | TokenType.IDENT => true
  | TokenType.INT => true
  | TokenType.FLOAT => true
  | TokenType.STRING => true
  | TokenType.TRUE => true
  | TokenType.FALSE => true
  | TokenType.MINUS => true
  | TokenType.BANG => true
  | TokenType.LPAREN => true
  | TokenType.FN => true
  | _ => false

/-- Decimal value of a scanned digit run. -/
def natOfDigits (cs : List Char) : Nat :=
  cs.foldl (fun acc c => acc * 10 + (c.toNat - 48)) 0

/-- Largest `int64`; conversion past it is a diagnostic (§4.3). -/
def int64Max : Nat := 9223372036854775807

mutual
/-- `parseExpression(minPrecedence)`: prefix rule, then the climbing
loop (§4.3). -/
def parseExpression : Nat → Nat → PState → Option Expr × PState
  | 0, _, st => (none, st)
  | fuel + 1, minPrec, st =>
      match parsePrefixPos fuel st with
      | (none, st1) => (none, st1)
      | (some left, st1) => parseClimb fuel minPrec left st1

/-- Apply the prefix rule of the current token class, or record the
"no prefix rule" diagnostic and yield no expression. -/
def parsePrefixPos : Nat → PState → Option Expr × PState
  | 0, st => (none, st)
  | fuel + 1, st =>
      let t := curTok st
      match t.type with
      | TokenType.IDENT => (some (.identifier ⟨t, t.word⟩), advTok st)
      | TokenType.INT =>
          let n := natOfDigits t.word.data
          if n ≤ int64Max then
            (some (.integerLiteral t (Int.ofNat n)), advTok st)
          else
            (none, advTok (addErr st t ("integer literal out of range: " ++ t.word)))
      | TokenType.FLOAT => (some (.floatLiteral t t.word), advTok st)
      | TokenType.STRING => (some (.stringLiteral t t.word), advTok st)
      | TokenType.TRUE => (some (.boolLiteral t true), advTok st)
      | TokenType.FALSE => (some (.boolLiteral t false), advTok st)
      | TokenType.MINUS =>
          match parseExpression fuel PRE (advTok st) with
          | (some r, st1) => (some (.prefixExpression t t.word r), st1)
          | (none, st1) => (none, st1)
      | TokenType.BANG =>
          match parseExpression fuel PRE (advTok st) with
          | (some r, st1) => (some (.prefixExpression t t.word r), st1)
          | (none, st1) => (none, st1)
      | TokenType.LPAREN =>
          match parseExpression fuel NONE (advTok st) with
          | (some e, st1) =>
              if (curTok st1).type = TokenType.RPAREN then (some e, advTok st1)
              else (none, addErr st1 (curTok st1) "expected )")
          | (none, st1) => (none, st1)
      | TokenType.FN => parseFnTail fuel t (advTok st)
      | _ => (none, addErr st t ("no prefix parse rule for " ++ t.word))

/-- The climbing loop (§4.3 step 3): while the current token's infix
precedence exceeds `minPrec`, extend the left-hand expression with a
binary operator or a call. -/
def parseClimb : Nat → Nat → Expr → PState → Option Expr × PState
  | 0, _, left, st => (some left, st)
  | fuel + 1, minPrec, left, st =>
      let t := curTok st
      let pr := infixPrecOf t.type
      if pr > minPrec then
        if t.type = TokenType.LPAREN then
          match parseCallArgs fuel (advTok st) with
          | (some args, st1) =>
              parseClimb fuel minPrec (.callExpression t left args) st1
          | (none, st1) => (some left, st1)
        else
          match parseExpression fuel pr (advTok st) with
          | (some r, st1) =>
              parseClimb fuel minPrec (.infixExpression t t.word left r) st1
          | (none, st1) => (some left, st1)
      else
        (some left, st)

/-- Comma-separated call arguments up to `)` (§4.3). -/
def parseCallArgs : Nat → PState → Option (List Expr) × PState
  | 0, st => (none, st)
  | fuel + 1, st =>
      if (curTok st).type = TokenType.RPAREN then (some [], advTok st)
      else
        match parseExpression fuel NONE st with
        | (some e, st1) => parseMoreArgs fuel [e] st1
        | (none, st1) => (none, st1)

/-- Remaining call arguments after the first. -/
def parseMoreArgs : Nat → List Expr → PState → Option (List Expr) × PState
  | 0, _, st => (none, st)
  | fuel + 1, acc, st =>
      if (curTok st).type = TokenType.COMMA then
        match parseExpression fuel NONE (advTok st) with
        | (some e, st1) => parseMoreArgs fuel (e :: acc) st1
        | (none, st1) => (none, st1)
      else if (curTok st).type = TokenType.RPAREN then
        (some acc.reverse, advTok st)
      else
        (none, addErr st (curTok st) "expected , or ) in argument list")

/-- Shared tail of both function forms: parenthesized identifier list
followed by a block body (§4.2, §4.3). -/
def parseFnTail : Nat → Token → PState → Option Expr × PState
  | 0, _, st => (none, st)
  | fuel + 1, fnTok, st =>
      if (curTok st).type = TokenType.LPAREN then
        match parseParams fuel (advTok st) with
        | (some ps, st1) =>
            if (curTok st1).type = TokenType.LBRACE then
              match parseBlock fuel st1 with
              | (b, st2) => (some (.functionLiteral (.mk fnTok ps b)), st2)
            else (none, addErr st1 (curTok st1) "expected \x7b to open function body")
        | (none, st1) => (none, st1)
      else
        (none, addErr st (curTok st) "expected ( after fn")

/-- Parenthesized parameter identifier list. -/
def parseParams : Nat → PState → Option (List Identifier) × PState
  | 0, st => (none, st)
  | fuel + 1, st =>
      let t := curTok st
      if t.type = TokenType.RPAREN then (some [], advTok st)
      else if t.type = TokenType.IDENT then
        parseMoreParams fuel [⟨t, t.word⟩] (advTok st)
      else (none, addErr st t "expected parameter identifier")

/-- Remaining parameters after the first. -/
def parseMoreParams : Nat → List Identifier → PState → Option (List Identifier) × PState
  | 0, _, st => (none, st)
  | fuel + 1, acc, st =>
      if (curTok st).type = TokenType.COMMA then
        let t := curTok (advTok st)
        if t.type = TokenType.IDENT then
          parseMoreParams fuel (⟨t, t.word⟩ :: acc) (advTok (advTok st))
        else (none, addErr (advTok st) t "expected parameter identifier")
      else if (curTok st).type = TokenType.RPAREN then
        (some acc.reverse, advTok st)
      else
        (none, addErr st (curTok st) "expected , or ) in parameter list")

/-- Block parsing: consume `{`, then statements until `}` or EOF (§4.2). -/
def parseBlock : Nat → PState → BlockStatement × PState
  | 0, st => (.mk (curTok st) [], st)
  | fuel + 1, st =>
      let lbrace := curTok st
      match parseBlockStmts fuel [] (advTok st) with
      | (stmts, st1) => (.mk lbrace stmts, st1)

/-- Statement loop of a block body. -/
def parseBlockStmts : Nat → List Stmt → PState → List Stmt × PState
  | 0, acc, st => (acc.reverse, st)
  | fuel + 1, acc, st =>
      if (curTok st).type = TokenType.RBRACE then (acc.reverse, advTok st)
      else if (curTok st).type = TokenType.EOF then
        (acc.reverse, addErr st (curTok st) "expected \x7d to close block")
      else
        match parseStatement fuel st with
        | (some s, st1) => parseBlockStmts fuel (s :: acc) st1
        | (none, st1) => parseBlockStmts fuel acc st1

/-- Statement dispatch by current token class (§4.2). -/
def parseStatement : Nat → PState → Option Stmt × PState
  | 0, st => (none, st)
  | fuel + 1, st =>
      match (curTok st).type with
      | TokenType.LET => parseLet fuel st
      | TokenType.FN => parseFnStatement fuel st
      | TokenType.RET => parseReturn fuel st
      | TokenType.IF => parseIf fuel st
      | TokenType.EOF => (none, st)
      | _ => parseExprStatement fuel st

/-- LET: identifier, optional `=` plus expression, terminating `;`. -/
def parseLet : Nat → PState → Option Stmt × PState
  | 0, st => (none, st)
  | fuel + 1, st =>
      let letTok := curTok st
      let st1 := advTok st
      let identTok := curTok st1
      if identTok.type = TokenType.IDENT then
        let st2 := advTok st1
        match
          (if (curTok st2).type = TokenType.ASSIGN then
            parseExpression fuel NONE (advTok st2)
          else (none, st2) : Option Expr × PState)
        with
        | (init, st3) =>
            let st4 :=
              if (curTok st3).type = TokenType.SEMCOL then advTok st3
              else addErr st3 (curTok st3) "expected ; after let statement"
            (some (.letStatement letTok ⟨identTok, identTok.word⟩ init), st4)
      else
        (none, addErr st1 identTok "expected identifier after let")

/-- RETURN: optional expression, terminating `;`. -/
def parseReturn : Nat → PState → Option Stmt × PState
  | 0, st => (none, st)
  | fuel + 1, st =>
      let retTok := curTok st
      let st1 := advTok st
      if (curTok st1).type = TokenType.SEMCOL then
        (some (.returnStatement retTok none), advTok st1)
      else
        match parseExpression fuel NONE st1 with
        | (some e, st2) =>
            let st3 :=
              if (curTok st2).type = TokenType.SEMCOL then advTok st2
              else addErr st2 (curTok st2) "expected ; after return value"
            (some (.returnStatement retTok (some e)), st3)
        | (none, st2) =>
            (some (.returnStatement retTok none), advTok st2)

/-- IF: condition, then-block, optional else that is either another if
(recursing into an else-if chain) or a block (§4.2). -/
def parseIf : Nat → PState → Option Stmt × PState
  | 0, st => (none, st)
  | fuel + 1, st =>
      let ifTok := curTok st
      let st1 := advTok st
      match parseExpression fuel NONE st1 with
      | (cond, st2) =>
        if (curTok st2).type = TokenType.LBRACE then
          match parseBlock fuel st2 with
          | (thenB, st3) =>
            if (curTok st3).type = TokenType.ELSE then
              let st4 := advTok st3
              if (curTok st4).type = TokenType.IF then
                match parseIf fuel st4 with
                | (els, st5) => (some (.ifStatement ifTok cond thenB els), st5)
              else if (curTok st4).type = TokenType.LBRACE then
                match parseBlock fuel st4 with
                | (b, st5) =>
                    (some (.ifStatement ifTok cond thenB (some (.blockStatement b))), st5)
              else
                (some (.ifStatement ifTok cond thenB none),
                  addErr st4 (curTok st4) "expected if or block after else")
            else
              (some (.ifStatement ifTok cond thenB none), st3)
        else
          (none, addErr st2 (curTok st2) "expected \x7b after if condition")

/-- FN in statement position: name identifier, then the shared
parameter-list/body tail (§4.2 "reuses function-literal parsing"). -/
def parseFnStatement : Nat → PState → Option Stmt × PState
  | 0, st => (none, st)
  | fuel + 1, st =>
      let fnTok := curTok st
      let st1 := advTok st
      let nameTok := curTok st1
      if nameTok.type = TokenType.IDENT then
        match parseFnTail fuel fnTok (advTok st1) with
        | (some (.functionLiteral lit), st2) =>
            (some (.functionStatement fnTok ⟨nameTok, nameTok.word⟩ lit), st2)
        | (_, st2) => (none, st2)
      else
        (none, addErr st1 nameTok "expected function name")

/-- Default dispatch: expression statement with optional trailing `;`;
on a failed expression position the parser records the diagnostic and
skips past the offending token (§4.2, §4.4). -/
def parseExprStatement : Nat → PState → Option Stmt × PState
  | 0, st => (none, st)
  | fuel + 1, st =>
      let tok := curTok st
      match parseExpression fuel NONE st with
      | (some e, st1) =>
          let st2 :=
            if (curTok st1).type = TokenType.SEMCOL then advTok st1 else st1
          (some (.expressionStatement tok (some e)), st2)
      | (none, st1) =>
          (some (.expressionStatement tok none), advTok st1)
end

/-- Top statement loop: while the current token is not EOF, parse one
statement and append it (§4.2). -/
def parseProgram : Nat → PState → List Stmt × PState
  | 0, st => ([], st)
  | fuel + 1, st =>
      if (curTok st).type = TokenType.EOF then ([], st)
      else
        let r1 := parseStatement fuel st
        let r2 := parseProgram fuel r1.2
        (match r1.1 with
         | some stmt => stmt :: r2.1
         | none => r2.1, r2.2)

/-- Fuel that dominates any call chain of the parser on a stream: every
mutual function either consumes a token or hands off to a callee within
a bounded chain, so a linear budget suffices. -/
def parseFuel (toks : List Token) : Nat :=
  8 * toks.length + 16

/-- `Parse()`: lex the source, run the statement loop, return the
program and the diagnostics list. -/
def Parse (name input : String) : Program × List String :=
  let toks := lex name input
  match parseProgram (parseFuel toks) ⟨toks, []⟩ with
  | (stmts, st) => (⟨stmts⟩, st.errs)

/-- `ParseExpression(minPrecedence)` over a whole source text, the
embedding/testing entry point of §6. -/
def ParseExpression (name input : String) (minPrec : Nat) : Option Expr × List String :=
  let toks := lex name input
  match parseExpression (parseFuel toks) minPrec ⟨toks, []⟩ with
  | (e, st) => (e, st.errs)

/-! ## Support for the claim statements -/

/-- Dummy location used when comparing trees up to source coordinates. -/
def noLoc : SrcLoc := { source := "", line := 0, column := 0 }

/-- Forget a token's coordinates, keeping class and text. -/
def eraseTok (t : Token) : Token :=
  { t with loc := noLoc }

/-- Forget an identifier's coordinates. -/
def eraseIdent (i : Identifier) : Identifier :=
  { i with token := eraseTok i.token }

mutual
/-- Forget all source coordinates in a statement. -/
def eraseStmt : Stmt → Stmt
  | .blockStatement b => .blockStatement (eraseBlock b)
  | .functionStatement t i v =>
      .functionStatement (eraseTok t) (eraseIdent i) (eraseFnLit v)
  | .letStatement t i v => .letStatement (eraseTok t) (eraseIdent i) (eraseOptExpr v)
  | .returnStatement t v => .returnStatement (eraseTok t) (eraseOptExpr v)
  | .expressionStatement t e => .expressionStatement (eraseTok t) (eraseOptExpr e)
  | .ifStatement t c th el =>
      .ifStatement (eraseTok t) (eraseOptExpr c) (eraseBlock th) (eraseOptStmt el)

/-- Forget all source coordinates in a block. -/
def eraseBlock : BlockStatement → BlockStatement
  | .mk t ss => .mk (eraseTok t) (eraseStmts ss)

/-- Coordinate erasure over a statement list. -/
def eraseStmts : List Stmt → List Stmt
  | [] => []
  | s :: rest => eraseStmt s :: eraseStmts rest

/-- Coordinate erasure over an optional statement. -/
def eraseOptStmt : Option Stmt → Option Stmt
  | none => none
  | some s => some (eraseStmt s)

/-- Forget all source coordinates in an expression. -/
def eraseExpr : Expr → Expr
  | .identifier i => .identifier (eraseIdent i)
  | .integerLiteral t v => .integerLiteral (eraseTok t) v
  | .floatLiteral t v => .floatLiteral (eraseTok t) v
  | .stringLiteral t v => .stringLiteral (eraseTok t) v
  | .boolLiteral t v => .boolLiteral (eraseTok t) v
  | .prefixExpression t op r => .prefixExpression (eraseTok t) op (eraseExpr r)
  | .infixExpression t op l r =>
      .infixExpression (eraseTok t) op (eraseExpr l) (eraseExpr r)
  | .callExpression t f args => .callExpression (eraseTok t) (eraseExpr f) (eraseExprs args)
  | .functionLiteral l => .functionLiteral (eraseFnLit l)

/-- Coordinate erasure over an optional expression. -/
def eraseOptExpr : Option Expr → Option Expr
  | none => none
  | some e => some (eraseExpr e)

/-- Coordinate erasure over an expression list. -/
def eraseExprs : List Expr → List Expr
  | [] => []
  | e :: rest => eraseExpr e :: eraseExprs rest

/-- Forget all source coordinates in a function literal. -/
def eraseFnLit : FunctionLiteral → FunctionLiteral
  | .mk t ps b => .mk (eraseTok t) (ps.map eraseIdent) (eraseBlock b)
end

/-- The parameter identifier texts and the coordinate-erased body of a
parsed single `fn` declaration statement. -/
def fnStmtParts (p : Program) : Option (List String × BlockStatement) :=
  match p.statements with
  | [Stmt.functionStatement _ _ (FunctionLiteral.mk _ ps b)] =>
      some (identStrings ps, eraseBlock b)
  | _ => none

/-- The parameter identifier texts and the coordinate-erased body of the
function-literal initializer of a parsed single `let` statement. -/
def letFnParts (p : Program) : Option (List String × BlockStatement) :=
  match p.statements with
  | [Stmt.letStatement _ _ (some (Expr.functionLiteral (FunctionLiteral.mk _ ps b)))] =>
      some (identStrings ps, eraseBlock b)
  | _ => none

/-- The shape claimed for `"if x < y { x; } else if x > y { y; } else
{ x + y; }"`: one statement, an if whose else is an if whose own else
is a block, each branch carrying its single source statement. -/
def ifElseIfElseShape (p : Program) : Bool :=
  match p.statements with
  | [Stmt.ifStatement _ (some c1) (BlockStatement.mk _ [s1])
      (some (Stmt.ifStatement _ (some c2) (BlockStatement.mk _ [s2])
        (some (Stmt.blockStatement (BlockStatement.mk _ [s3])))))] =>
      exprString c1 == "(x < y)" && stmtString s1 == "x" &&
        exprString c2 == "(x > y)" && stmtString s2 == "y" &&
        stmtString s3 == "(x + y)"
  | _ => false

/-- The data-model invariant claimed for `If.Else`: absent, another if,
or a block. -/
def ifElseFieldOK (s : Stmt) : Bool :=
  match s with
  | .ifStatement _ _ _ none => true
  | .ifStatement _ _ _ (some (.ifStatement _ _ _ _)) => true
  | .ifStatement _ _ _ (some (.blockStatement _)) => true
  | .ifStatement _ _ _ (some _) => false
  | _ => true

/-- A token for claim instances that need no particular coordinates. -/
def claimTok (t : TokenType) (w : String) : Token :=
  { loc := noLoc, type := t, word := w }

/-- An if statement whose condition is the identifier `x` and whose
then-block is empty. -/
def ifWithCondX : Stmt :=
  .ifStatement (claimTok TokenType.IF "if")
    (some (.identifier ⟨claimTok TokenType.IDENT "x", "x"⟩))
    (.mk (claimTok TokenType.LBRACE "\x7b") []) none

/-- The same if statement with condition `y` instead of `x`. -/
def ifWithCondY : Stmt :=
  .ifStatement (claimTok TokenType.IF "if")
    (some (.identifier ⟨claimTok TokenType.IDENT "y", "y"⟩))
    (.mk (claimTok TokenType.LBRACE "\x7b") []) none

/-- An if statement whose else field holds a let statement: the Go
field type `Else Statement` admits it. -/
def ifWithLetElse : Stmt :=
  .ifStatement (claimTok TokenType.IF "if")
    (some (.identifier ⟨claimTok TokenType.IDENT "x", "x"⟩))
    (.mk (claimTok TokenType.LBRACE "\x7b") [])
    (some (.letStatement (claimTok TokenType.LET "let")
      ⟨claimTok TokenType.IDENT "z", "z"⟩ none))

/-- Rendering of an if statement's condition, when present. -/
def conditionString : Stmt → Option String
  | .ifStatement _ (some c) _ _ => some (exprString c)
  | _ => none

mutual
/-- Deep else-field invariant: every if statement anywhere inside the
node has an absent else, another if, or a block in its else field. -/
def stmtElseOK : Stmt → Bool
  | .blockStatement b => blockElseOK b
  | .functionStatement _ _ v => fnLitElseOK v
  | .letStatement _ _ v => optExprElseOK v
  | .returnStatement _ v => optExprElseOK v
  | .expressionStatement _ e => optExprElseOK e
  | .ifStatement _ c th el =>
      optExprElseOK c && blockElseOK th && elseFieldDeepOK el

/-- The else field itself: absent, an if (recursing down the chain), or
a block; anything else breaks the invariant. -/
def elseFieldDeepOK : Option Stmt → Bool
  | none => true
  | some (.ifStatement _ c th el) =>
      optExprElseOK c && blockElseOK th && elseFieldDeepOK el
  | some (.blockStatement b) => blockElseOK b
  | some _ => false

/-- Deep else-field invariant over a block. -/
def blockElseOK : BlockStatement → Bool
  | .mk _ ss => stmtsElseOK ss

/-- Deep else-field invariant over a statement list. -/
def stmtsElseOK : List Stmt → Bool
  | [] => true
  | s :: rest => stmtElseOK s && stmtsElseOK rest

/-- Deep else-field invariant over an optional expression. -/
def optExprElseOK : Option Expr → Bool
  | none => true
  | some e => exprElseOK e

/-- Deep else-field invariant over an expression (if statements can sit
inside a function literal's body). -/
def exprElseOK : Expr → Bool
  | .prefixExpression _ _ r => exprElseOK r
  | .infixExpression _ _ l r => exprElseOK l && exprElseOK r
  | .callExpression _ f args => exprElseOK f && exprsElseOK args
  | .functionLiteral l => fnLitElseOK l
  | _ => true

/-- Deep else-field invariant over an expression list. -/
def exprsElseOK : List Expr → Bool
  | [] => true
  | e :: rest => exprElseOK e && exprsElseOK rest

/-- Deep else-field invariant over a function literal. -/
def fnLitElseOK : FunctionLiteral → Bool
  | .mk _ _ b => blockElseOK b
end

/-- Invariant lifted to an optional expression-list parse result. -/
def optExprsElseOK : Option (List Expr) → Bool
  | none => true
  | some l => exprsElseOK l

/-- Invariant lifted to an optional statement parse result. -/
def optStmtElseOK : Option Stmt → Bool
  | none => true
  | some s => stmtElseOK s

/-! ## A grammar of syntactically valid single statements

Modelled from the spec: §4.2–§4.3 describe which inputs the parser
accepts; this grammar renders that class explicit as data —
identifiers, integer literals, booleans, unary and parenthesized
binary operator expressions, calls, function literals, and the five
statement forms with else-if chains — together with the token sequence
each sentence denotes.  It formalizes "syntactically valid
single-statement input" for the testable property of §8. -/

mutual
/-- Expression heads: everything a prefix rule consumes whole. -/
inductive GHead where
  | hvar (s : String)
  | hint (s : String)
  | hbool (b : Bool)
  | hneg (e : GExpr)
  | hnot (e : GExpr)
  | hbin (op : TokenType) (l r : GExpr)
  | hfn (ps : GParams) (body : GStmts)

/-- An expression: a head, optionally applied to call arguments. -/
inductive GExpr where
  | ge (h : GHead) (call : GCall)

/-- Optional call suffix. -/
inductive GCall where
  | cnone
  | csome (args : GArgs)

/-- Call argument list. -/
inductive GArgs where
  | anil
  | acons (e : GExpr) (rest : GArgs)

/-- Parameter identifier list. -/
inductive GParams where
  | pnil
  | pcons (x : String) (rest : GParams)

/-- Statement sequence of a block. -/
inductive GStmts where
  | snil
  | scons (s : GStmt) (rest : GStmts)

/-- The statement forms of §4.2. -/
inductive GStmt where
  | slet (x : String) (e : GExpr)
  | sletNoInit (x : String)
  | sret (e : GExpr)
  | sretVoid
  | sexpr (e : GExpr)
  | sif (c : GExpr) (t : GStmts) (els : GElse)
  | sfn (f : String) (ps : GParams) (body : GStmts)

/-- Else part: absent, a block, or an else-if continuation. -/
inductive GElse where
  | enone
  | eelse (b : GStmts)
  | eelif (c : GExpr) (t : GStmts) (els : GElse)
end

/-- A word the lexer scans as a single identifier and the keyword table
classifies as `IDENT`. -/
def validIdentWord (s : String) : Bool :=
  (match s.data with
   | [] => false
   | c :: cs => isIdentStartCh c && cs.all isIdentCh) &&
  decide (LookUpKeyword s = TokenType.IDENT)

/-- A nonempty digit run within the `int64` range. -/
def validIntWord (s : String) : Bool :=
  (match s.data with
   | [] => false
   | _ :: _ => true) &&
  s.data.all isDigitCh &&
  decide (natOfDigits s.data ≤ int64Max)

/-- An expression statement may not open with `fn`: the statement
dispatch of §4.2 would read a function declaration instead. -/
def notFnStart : GExpr → Bool
  | .ge (.hfn _ _) _ => false
  | _ => true

/-- Heads built by a unary-operator prefix rule: their operand is read
at the unary level, so a directly following call suffix would bind to
the operand instead. -/
def negHead : GHead → Bool
  | .hneg _ => true
  | .hnot _ => true
  | _ => false

/-- A call suffix may follow any head except a unary-operator head. -/
def callOK : GHead → GCall → Bool
  | _, .cnone => true
  | h, .csome _ => !negHead h

/-- Whether an expression's head is a unary-operator head. -/
def negHeadE : GExpr → Bool
  | .ge h _ => negHead h

/-- Literal text of the binary operators of §4.3's precedence table. -/
def binOpWord : TokenType → Option String
  | TokenType.EQ => some "=="
  | TokenType.NE => some "!="
  | TokenType.LT => some "<"
  | TokenType.GT => some ">"
  | TokenType.PLUS => some "+"
  | TokenType.MINUS => some "-"
  | TokenType.STAR => some "*"
  | TokenType.SLASH => some "/"
  | _ => none

mutual
/-- Well-formedness: identifier/integer words are lexable, operators
are drawn from the table. -/
def wfH : GHead → Bool
  | .hvar s => validIdentWord s
  | .hint s => validIntWord s
  | .hbool _ => true
  | .hneg e => wfE e
  | .hnot e => wfE e
  | .hbin op l r => (binOpWord op).isSome && wfE l && wfE r
  | .hfn ps b => wfP ps && wfSs b

/-- Well-formedness of an expression. -/
def wfE : GExpr → Bool
  | .ge h c => wfH h && callOK h c && wfC c

/-- Well-formedness of a call suffix. -/
def wfC : GCall → Bool
  | .cnone => true
  | .csome a => wfA a

/-- Well-formedness of an argument list. -/
def wfA : GArgs → Bool
  | .anil => true
  | .acons e r => wfE e && wfA r

/-- Well-formedness of a parameter list. -/
def wfP : GParams → Bool
  | .pnil => true
  | .pcons x r => validIdentWord x && wfP r

/-- Well-formedness of a statement sequence. -/
def wfSs : GStmts → Bool
  | .snil => true
  | .scons s r => wfS s && wfSs r

/-- Well-formedness of a statement. -/
def wfS : GStmt → Bool
  | .slet x e => validIdentWord x && wfE e
  | .sletNoInit x => validIdentWord x
  | .sret e => wfE e
  | .sretVoid => true
  | .sexpr e => notFnStart e && wfE e
  | .sif c t els => wfE c && wfSs t && wfEl els
  | .sfn f ps b => validIdentWord f && wfP ps && wfSs b

/-- Well-formedness of an else part. -/
def wfEl : GElse → Bool
  | .enone => true
  | .eelse b => wfSs b
  | .eelif c t els => wfE c && wfSs t && wfEl els
end

mutual
/-- Token classes and words of an expression head. -/
def headToks : GHead → List (TokenType × String)
  | .hvar s => [(TokenType.IDENT, s)]
  | .hint s => [(TokenType.INT, s)]
  | .hbool true => [(TokenType.TRUE, "true")]
  | .hbool false => [(TokenType.FALSE, "false")]
  | .hneg e => (TokenType.MINUS, "-") :: exprToks e
  | .hnot e => (TokenType.BANG, "!") :: exprToks e
  | .hbin op l r =>
      (TokenType.LPAREN, "(") :: exprToks l ++
        (op, (binOpWord op).getD "") :: exprToks r ++ [(TokenType.RPAREN, ")")]
  | .hfn ps b =>
      (TokenType.FN, "fn") :: (TokenType.LPAREN, "(") :: paramToks ps ++
        (TokenType.LBRACE, "\x7b") :: stmtsToks b ++ [(TokenType.RBRACE, "\x7d")]

/-- Token classes and words of an expression. -/
def exprToks : GExpr → List (TokenType × String)
  | .ge h c => headToks h ++ callToks c

/-- Token classes and words of a call suffix. -/
def callToks : GCall → List (TokenType × String)
  | .cnone => []
  | .csome a => (TokenType.LPAREN, "(") :: argToks a

/-- Tokens of an argument list including the closing parenthesis. -/
def argToks : GArgs → List (TokenType × String)
  | .anil => [(TokenType.RPAREN, ")")]
  | .acons e r => exprToks e ++ moreArgToks r

/-- Tokens after the first argument. -/
def moreArgToks : GArgs → List (TokenType × String)
  | .anil => [(TokenType.RPAREN, ")")]
  | .acons e r => (TokenType.COMMA, ",") :: exprToks e ++ moreArgToks r

/-- Tokens of a parameter list including the closing parenthesis. -/
def paramToks : GParams → List (TokenType × String)
  | .pnil => [(TokenType.RPAREN, ")")]
  | .pcons x r => (TokenType.IDENT, x) :: moreParamToks r

/-- Tokens after the first parameter. -/
def moreParamToks : GParams → List (TokenType × String)
  | .pnil => [(TokenType.RPAREN, ")")]
  | .pcons x r => (TokenType.COMMA, ",") :: (TokenType.IDENT, x) :: moreParamToks r

/-- Tokens of a statement sequence. -/
def stmtsToks : GStmts → List (TokenType × String)
  | .snil => []
  | .scons s r => stmtToks s ++ stmtsToks r

/-- Tokens of one statement, terminator included. -/
def stmtToks : GStmt → List (TokenType × String)
  | .slet x e =>
      (TokenType.LET, "let") :: (TokenType.IDENT, x) :: (TokenType.ASSIGN, "=") ::
        exprToks e ++ [(TokenType.SEMCOL, ";")]
  | .sletNoInit x =>
      [(TokenType.LET, "let"), (TokenType.IDENT, x), (TokenType.SEMCOL, ";")]
  | .sret e => (TokenType.RET, "return") :: exprToks e ++ [(TokenType.SEMCOL, ";")]
  | .sretVoid => [(TokenType.RET, "return"), (TokenType.SEMCOL, ";")]
  | .sexpr e => exprToks e ++ [(TokenType.SEMCOL, ";")]
  | .sif c t els =>
      (TokenType.IF, "if") :: exprToks c ++
        (TokenType.LBRACE, "\x7b") :: stmtsToks t ++
        (TokenType.RBRACE, "\x7d") :: elseToks els
  | .sfn f ps b =>
      (TokenType.FN, "fn") :: (TokenType.IDENT, f) :: (TokenType.LPAREN, "(") ::
        paramToks ps ++ (TokenType.LBRACE, "\x7b") :: stmtsToks b ++
        [(TokenType.RBRACE, "\x7d")]

/-- Tokens of an else part. -/
def elseToks : GElse → List (TokenType × String)
  | .enone => []
  | .eelse b =>
      (TokenType.ELSE, "else") :: (TokenType.LBRACE, "\x7b") :: stmtsToks b ++
        [(TokenType.RBRACE, "\x7d")]
  | .eelif c t els =>
      (TokenType.ELSE, "else") :: (TokenType.IF, "if") :: exprToks c ++
        (TokenType.LBRACE, "\x7b") :: stmtsToks t ++
        (TokenType.RBRACE, "\x7d") :: elseToks els
end

/-- The class and text of a token, forgetting its coordinates. -/
def tokKey (t : Token) : TokenType × String :=
  (t.type, t.word)

/-- Space-separated rendering of a token-key sequence: the source text
the grammar sentence denotes. -/
def renderToks : List (TokenType × String) → String
  | [] => ""
  | k :: rest => k.2 ++ " " ++ renderToks rest

/-- Words the lexer scans back as a single token of the given class. -/
def wordOK : TokenType → String → Bool
  | TokenType.IDENT, s => validIdentWord s
  | TokenType.INT, s =>
      (match s.data with
       | [] => false
       | _ :: _ => true) && s.data.all isDigitCh
  | TokenType.TRUE, s => s == "true"
  | TokenType.FALSE, s => s == "false"
  | TokenType.FN, s => s == "fn"
  | TokenType.LET, s => s == "let"
  | TokenType.RET, s => s == "return"
  | TokenType.IF, s => s == "if"
  | TokenType.ELSE, s => s == "else"
  | TokenType.EQ, s => s == "=="
  | TokenType.NE, s => s == "!="
  | TokenType.LT, s => s == "<"
  | TokenType.GT, s => s == ">"
  | TokenType.PLUS, s => s == "+"
  | TokenType.MINUS, s => s == "-"
  | TokenType.BANG, s => s == "!"
  | TokenType.STAR, s => s == "*"
  | TokenType.SLASH, s => s == "/"
  | TokenType.ASSIGN, s => s == "="
  | TokenType.COMMA, s => s == ","
  | TokenType.SEMCOL, s => s == ";"
  | TokenType.LPAREN, s => s == "("
  | TokenType.RPAREN, s => s == ")"
  | TokenType.LBRACE, s => s == "\x7b"
  | TokenType.RBRACE, s => s == "\x7d"
  | _, _ => false


/-! Completeness statements: each grammar sort comes with the parse
behavior its token sequence guarantees.  `8 * ts.length + 16` dominates
the fuel any parse of the consumed segment spends. -/

/-- A prefix-rule head is consumed whole by `parsePrefixPos`.  A
unary-operator head additionally needs the following token to bind no
tighter than the unary level, or the operand parse would run past it. -/
def PHProp (h : GHead) : Prop :=
  wfH h = true →
  ∀ (fuel : Nat) (ts : List Token) (rest : List Token) (errs : List String),
    ts.map tokKey = headToks h →
    8 * ts.length + 16 ≤ fuel →
    (negHead h = true → infixPrecOf (rest.headD eofToken).type ≤ PRE) →
    ∃ v, parsePrefixPos fuel ⟨ts ++ rest, errs⟩ = (some v, ⟨rest, errs⟩)

/-- An expression's tokens move `parseExpression` to a residual climb
on exactly the remaining input: the loop then continues or stops
depending on the next token's binding power. -/
def PExProp (e : GExpr) : Prop :=
  wfE e = true →
  ∀ (fuel minPrec : Nat) (ts rest : List Token) (errs : List String),
    ts.map tokKey = exprToks e →
    8 * ts.length + 20 ≤ fuel →
    minPrec ≤ PRE →
    (negHeadE e = true → infixPrecOf (rest.headD eofToken).type ≤ PRE) →
    ∃ v f', parseExpression fuel minPrec ⟨ts ++ rest, errs⟩ =
        parseClimb f' minPrec v ⟨rest, errs⟩ ∧
      fuel ≤ f' + 8 * ts.length + 16

/-- A call suffix drives the climbing loop to a residual climb on
exactly the remaining input. -/
def PCProp (c : GCall) : Prop :=
  wfC c = true →
  ∀ (left : Expr) (fuel minPrec : Nat) (ts rest : List Token) (errs : List String),
    ts.map tokKey = callToks c →
    8 * ts.length + 16 ≤ fuel →
    minPrec ≤ PRE →
    ∃ v f', parseClimb fuel minPrec left ⟨ts ++ rest, errs⟩ =
        parseClimb f' minPrec v ⟨rest, errs⟩ ∧
      fuel ≤ f' + 8 * ts.length + 8

/-- An argument list (with its closing parenthesis) is consumed whole
by `parseCallArgs`. -/
def PAProp (a : GArgs) : Prop :=
  wfA a = true →
  ∀ (fuel : Nat) (ts rest : List Token) (errs : List String),
    ts.map tokKey = argToks a →
    8 * ts.length + 16 ≤ fuel →
    ∃ vs, parseCallArgs fuel ⟨ts ++ rest, errs⟩ = (some vs, ⟨rest, errs⟩)

/-- Continuation arguments are consumed whole by `parseMoreArgs`. -/
def PMProp (a : GArgs) : Prop :=
  wfA a = true →
  ∀ (acc : List Expr) (fuel : Nat) (ts rest : List Token) (errs : List String),
    ts.map tokKey = moreArgToks a →
    8 * ts.length + 16 ≤ fuel →
    ∃ vs, parseMoreArgs fuel acc ⟨ts ++ rest, errs⟩ = (some vs, ⟨rest, errs⟩)

/-- A block body (up to and including `}`) is consumed whole by
`parseBlockStmts`. -/
def PSsProp (ss : GStmts) : Prop :=
  wfSs ss = true →
  ∀ (acc : List Stmt) (fuel : Nat) (ts rest : List Token) (errs : List String),
    ts.map tokKey = stmtsToks ss ++ [(TokenType.RBRACE, "\x7d")] →
    8 * ts.length + 16 ≤ fuel →
    ∃ vs, parseBlockStmts fuel acc ⟨ts ++ rest, errs⟩ =
      (acc.reverse ++ vs, ⟨rest, errs⟩)

/-- A statement is consumed whole by `parseStatement` when the next
token does not open an else branch. -/
def PStProp (s : GStmt) : Prop :=
  wfS s = true →
  ∀ (fuel : Nat) (ts rest : List Token) (errs : List String),
    ts.map tokKey = stmtToks s →
    8 * ts.length + 16 ≤ fuel →
    (rest.headD eofToken).type ≠ TokenType.ELSE →
    ∃ v, parseStatement fuel ⟨ts ++ rest, errs⟩ = (some v, ⟨rest, errs⟩)

/-- An if statement (keyword, condition, then-block, else part) is
consumed whole by `parseIf`. -/
def PIfProp (c : GExpr) (t : GStmts) (els : GElse) : Prop :=
  wfE c = true → wfSs t = true → wfEl els = true →
  ∀ (fuel : Nat) (ts rest : List Token) (errs : List String),
    ts.map tokKey = (TokenType.IF, "if") ::
      (exprToks c ++ ((TokenType.LBRACE, "\x7b") ::
        (stmtsToks t ++ ((TokenType.RBRACE, "\x7d") :: elseToks els)))) →
    8 * ts.length + 8 ≤ fuel →
    (rest.headD eofToken).type ≠ TokenType.ELSE →
    ∃ v, parseIf fuel ⟨ts ++ rest, errs⟩ = (some v, ⟨rest, errs⟩)

/-- The shared parameter/body tail is consumed whole by `parseFnTail`. -/
def PFnProp (ps : GParams) (b : GStmts) : Prop :=
  wfP ps = true → wfSs b = true →
  ∀ (fuel : Nat) (ts rest : List Token) (errs : List String) (fnTok : Token),
    ts.map tokKey = (TokenType.LPAREN, "(") ::
      (paramToks ps ++ ((TokenType.LBRACE, "\x7b") ::
        (stmtsToks b ++ [(TokenType.RBRACE, "\x7d")]))) →
    8 * ts.length + 16 ≤ fuel →
    ∃ l, parseFnTail fuel fnTok ⟨ts ++ rest, errs⟩ =
      (some (Expr.functionLiteral l), ⟨rest, errs⟩)

/-- All completeness statements for grammar values of bounded size:
the motive of one strong induction on size. -/
def BigConj (n : Nat) : Prop :=
  (∀ h : GHead, sizeOf h ≤ n → PHProp h) ∧
  (∀ e : GExpr, sizeOf e ≤ n → PExProp e) ∧
  (∀ c : GCall, sizeOf c ≤ n → PCProp c) ∧
  (∀ a : GArgs, sizeOf a ≤ n → PAProp a) ∧
  (∀ a : GArgs, sizeOf a ≤ n → PMProp a) ∧
  (∀ ss : GStmts, sizeOf ss ≤ n → PSsProp ss) ∧
  (∀ s : GStmt, sizeOf s ≤ n → PStProp s) ∧
  (∀ (c : GExpr) (t : GStmts) (els : GElse),
    sizeOf c + sizeOf t + sizeOf els ≤ n → PIfProp c t els) ∧
  (∀ (ps : GParams) (b : GStmts), sizeOf ps + sizeOf b ≤ n → PFnProp ps b)

/-- Every token key a well-formed grammar value renders is a word the
scanner reads back as a single token of its class: the motive of the
lexability induction. -/
def WConj (n : Nat) : Prop :=
  (∀ h : GHead, sizeOf h ≤ n → wfH h = true →
    ∀ k ∈ headToks h, wordOK k.1 k.2 = true) ∧
  (∀ e : GExpr, sizeOf e ≤ n → wfE e = true →
    ∀ k ∈ exprToks e, wordOK k.1 k.2 = true) ∧
  (∀ c : GCall, sizeOf c ≤ n → wfC c = true →
    ∀ k ∈ callToks c, wordOK k.1 k.2 = true) ∧
  (∀ a : GArgs, sizeOf a ≤ n → wfA a = true →
    ∀ k ∈ argToks a, wordOK k.1 k.2 = true) ∧
  (∀ a : GArgs, sizeOf a ≤ n → wfA a = true →
    ∀ k ∈ moreArgToks a, wordOK k.1 k.2 = true) ∧
  (∀ p : GParams, sizeOf p ≤ n → wfP p = true →
    ∀ k ∈ paramToks p, wordOK k.1 k.2 = true) ∧
  (∀ p : GParams, sizeOf p ≤ n → wfP p = true →
    ∀ k ∈ moreParamToks p, wordOK k.1 k.2 = true) ∧
  (∀ ss : GStmts, sizeOf ss ≤ n → wfSs ss = true →
    ∀ k ∈ stmtsToks ss, wordOK k.1 k.2 = true) ∧
  (∀ s : GStmt, sizeOf s ≤ n → wfS s = true →
    ∀ k ∈ stmtToks s, wordOK k.1 k.2 = true) ∧
  (∀ els : GElse, sizeOf els ≤ n → wfEl els = true →
    ∀ k ∈ elseToks els, wordOK k.1 k.2 = true)

end RoLang

namespace RoLang

/-! ## Parser invariants -/

/-- The explicit list recursion agrees with `List.all`. -/
theorem stmtsElseOK_eq_all (l : List Stmt) : stmtsElseOK l = l.all stmtElseOK := by
  induction l with
  | nil => rfl
  | cons s rest ih => simp [stmtsElseOK, ih]

/-- The explicit list recursion agrees with `List.all`. -/
theorem exprsElseOK_eq_all (l : List Expr) : exprsElseOK l = l.all exprElseOK := by
  induction l with
  | nil => rfl
  | cons e rest ih => simp [exprsElseOK, ih]

/-- Reversal preserves the statement-list invariant. -/
theorem stmtsElseOK_reverse (l : List Stmt) : stmtsElseOK l.reverse = stmtsElseOK l := by
  rw [stmtsElseOK_eq_all, stmtsElseOK_eq_all, List.all_reverse]

/-- Reversal preserves the expression-list invariant. -/
theorem exprsElseOK_reverse (l : List Expr) : exprsElseOK l.reverse = exprsElseOK l := by
  rw [exprsElseOK_eq_all, exprsElseOK_eq_all, List.all_reverse]

/-- Every node any parser function builds keeps the else-field
invariant: else fields only ever receive `none`, a nested if from the
else-if recursion, or a block.  One simultaneous induction on fuel over
the whole mutual family. -/
theorem parser_preserves_else_invariant :
    ∀ fuel : Nat,
      (∀ mp st, optExprElseOK (parseExpression fuel mp st).1 = true) ∧
      (∀ st, optExprElseOK (parsePrefixPos fuel st).1 = true) ∧
      (∀ mp l st, exprElseOK l = true →
        optExprElseOK (parseClimb fuel mp l st).1 = true) ∧
      (∀ st, optExprsElseOK (parseCallArgs fuel st).1 = true) ∧
      (∀ acc st, exprsElseOK acc = true →
        optExprsElseOK (parseMoreArgs fuel acc st).1 = true) ∧
      (∀ tk st, optExprElseOK (parseFnTail fuel tk st).1 = true) ∧
      (∀ st, blockElseOK (parseBlock fuel st).1 = true) ∧
      (∀ acc st, stmtsElseOK acc = true →
        stmtsElseOK (parseBlockStmts fuel acc st).1 = true) ∧
      (∀ st, optStmtElseOK (parseStatement fuel st).1 = true) ∧
      (∀ st, optStmtElseOK (parseLet fuel st).1 = true) ∧
      (∀ st, optStmtElseOK (parseReturn fuel st).1 = true) ∧
      (∀ st, elseFieldDeepOK (parseIf fuel st).1 = true ∧
        optStmtElseOK (parseIf fuel st).1 = true) ∧
      (∀ st, optStmtElseOK (parseFnStatement fuel st).1 = true) ∧
      (∀ st, optStmtElseOK (parseExprStatement fuel st).1 = true) := by
  intro fuel
  induction fuel with
  | zero =>
    refine ⟨fun _ _ => rfl, fun _ => rfl, ?_, fun _ => rfl, fun _ _ _ => rfl,
      fun _ _ => rfl, fun _ => rfl, ?_, fun _ => rfl, fun _ => rfl, fun _ => rfl,
      fun _ => ⟨rfl, rfl⟩, fun _ => rfl, fun _ => rfl⟩
    · intro mp l st hl
      simpa [parseClimb, optExprElseOK] using hl
    · intro acc st hacc
      simpa [parseBlockStmts, stmtsElseOK_reverse] using hacc
  | succ n ih =>
    obtain ⟨ihExpr, ihPre, ihClimb, ihArgs, ihMore, ihTail, ihBlock, ihBStmts,
      ihStmt, ihLet, ihRet, ihIf, ihFnS, ihExprS⟩ := ih
    have hExpr : ∀ mp st, optExprElseOK (parseExpression (n + 1) mp st).1 = true := by
      intro mp st
      simp only [parseExpression]
      split
      · rfl
      · rename_i l st1 heq
        have hl := ihPre st
        rw [heq] at hl
        exact ihClimb mp l st1 (by simpa [optExprElseOK] using hl)
    have hTail : ∀ tk st, optExprElseOK (parseFnTail (n + 1) tk st).1 = true := by
      intro tk st
      simp only [parseFnTail]
      split
      · split
        · rename_i ps st1 heq
          split
          · rcases hb : parseBlock n st1 with ⟨b, st2⟩
            have hbo := ihBlock st1
            rw [hb] at hbo
            simpa [optExprElseOK, exprElseOK, fnLitElseOK] using hbo
          · rfl
        · rfl
      · rfl
    have hBlock : ∀ st, blockElseOK (parseBlock (n + 1) st).1 = true := by
      intro st
      simp only [parseBlock]
      rcases hb : parseBlockStmts n [] (advTok st) with ⟨ss, st1⟩
      have h := ihBStmts [] (advTok st) rfl
      rw [hb] at h
      simpa [blockElseOK] using h
    have hIf : ∀ st, elseFieldDeepOK (parseIf (n + 1) st).1 = true ∧
        optStmtElseOK (parseIf (n + 1) st).1 = true := by
      intro st
      simp only [parseIf]
      rcases hc : parseExpression n NONE (advTok st) with ⟨cond, st2⟩
      have hcond := ihExpr NONE (advTok st)
      rw [hc] at hcond
      split
      · rcases hbt : parseBlock n st2 with ⟨thenB, st3⟩
        have hthen := ihBlock st2
        rw [hbt] at hthen
        split
        · split
          · rcases hi : parseIf n (advTok st3) with ⟨els, st5⟩
            have hrec := ihIf (advTok st3)
            rw [hi] at hrec
            constructor <;>
              simp [elseFieldDeepOK, optStmtElseOK, stmtElseOK, hcond, hthen, hrec.1]
          · split
            · rcases hb2 : parseBlock n (advTok st3) with ⟨b, st5⟩
              have hb2ok := ihBlock (advTok st3)
              rw [hb2] at hb2ok
              constructor <;>
                simp [elseFieldDeepOK, optStmtElseOK, stmtElseOK, hcond, hthen, hb2ok]
            · constructor <;>
                simp [elseFieldDeepOK, optStmtElseOK, stmtElseOK, hcond, hthen]
        · constructor <;>
            simp [elseFieldDeepOK, optStmtElseOK, stmtElseOK, hcond, hthen]
      · exact ⟨rfl, rfl⟩
    refine ⟨hExpr, ?_, ?_, ?_, ?_, hTail, hBlock, ?_, ?_, ?_, ?_, hIf, ?_, ?_⟩
    · -- parsePrefixPos
      intro st
      simp only [parsePrefixPos]
      cases htype : (curTok st).type <;> simp only [htype]
      case IDENT => rfl
      case INT => split <;> rfl
      case FLOAT => rfl
      case STRING => rfl
      case TRUE => rfl
      case FALSE => rfl
      case MINUS =>
        split
        · rename_i r st1 heq
          have h := ihExpr PRE (advTok st)
          rw [heq] at h
          simpa [optExprElseOK, exprElseOK] using h
        · rfl
      case BANG =>
        split
        · rename_i r st1 heq
          have h := ihExpr PRE (advTok st)
          rw [heq] at h
          simpa [optExprElseOK, exprElseOK] using h
        · rfl
      case LPAREN =>
        split
        · rename_i e st1 heq
          have h := ihExpr NONE (advTok st)
          rw [heq] at h
          split
          · simpa [optExprElseOK] using h
          · rfl
        · rfl
      case FN => exact ihTail (curTok st) (advTok st)
      all_goals rfl
    · -- parseClimb
      intro mp l st hl
      simp only [parseClimb]
      split
      · split
        · split
          · rename_i args st1 heq
            have h := ihArgs (advTok st)
            rw [heq] at h
            simp only [optExprsElseOK] at h
            exact ihClimb mp _ st1 (by simp [exprElseOK, hl, h])
          · simpa [optExprElseOK] using hl
        · split
          · rename_i r st1 heq
            have h := ihExpr (infixPrecOf (curTok st).type) (advTok st)
            rw [heq] at h
            simp only [optExprElseOK] at h
            exact ihClimb mp _ st1 (by simp [exprElseOK, hl, h])
          · simpa [optExprElseOK] using hl
      · simpa [optExprElseOK] using hl
    · -- parseCallArgs
      intro st
      simp only [parseCallArgs]
      split
      · rfl
      · split
        · rename_i e st1 heq
          have h := ihExpr NONE st
          rw [heq] at h
          simp only [optExprElseOK] at h
          exact ihMore [e] st1 (by simp [exprsElseOK, h])
        · rfl
    · -- parseMoreArgs
      intro acc st hacc
      simp only [parseMoreArgs]
      split
      · split
        · rename_i e st1 heq
          have h := ihExpr NONE (advTok st)
          rw [heq] at h
          simp only [optExprElseOK] at h
          exact ihMore (e :: acc) st1 (by simp [exprsElseOK, h, hacc])
        · rfl
      · split
        · simpa [optExprsElseOK, exprsElseOK_reverse] using hacc
        · rfl
    · -- parseBlockStmts
      intro acc st hacc
      simp only [parseBlockStmts]
      split
      · simpa [stmtsElseOK_reverse] using hacc
      · split
        · simpa [stmtsElseOK_reverse] using hacc
        · split
          · rename_i s st1 heq
            have h := ihStmt st
            rw [heq] at h
            simp only [optStmtElseOK] at h
            exact ihBStmts (s :: acc) st1 (by simp [stmtsElseOK, h, hacc])
          · rename_i st1 heq
            exact ihBStmts acc st1 hacc
    · -- parseStatement
      intro st
      simp only [parseStatement]
      cases htype : (curTok st).type <;> simp only [htype]
      case LET => exact ihLet st
      case FN => exact ihFnS st
      case RET => exact ihRet st
      case IF => exact (ihIf st).2
      case EOF => rfl
      all_goals exact ihExprS st
    · -- parseLet
      intro st
      simp only [parseLet]
      split
      · rcases heq :
          (if (curTok (advTok (advTok st))).type = TokenType.ASSIGN then
            parseExpression n NONE (advTok (advTok (advTok st)))
          else (none, advTok (advTok st)) : Option Expr × PState) with ⟨init, st3⟩
        have hinit : optExprElseOK init = true := by
          by_cases ha : (curTok (advTok (advTok st))).type = TokenType.ASSIGN
          · rw [if_pos ha] at heq
            have h := ihExpr NONE (advTok (advTok (advTok st)))
            rw [heq] at h
            exact h
          · rw [if_neg ha] at heq
            cases heq
            rfl
        simp [optStmtElseOK, stmtElseOK, hinit]
      · rfl
    · -- parseReturn
      intro st
      simp only [parseReturn]
      split
      · rfl
      · split
        · rename_i e st2 heq
          have h := ihExpr NONE (advTok st)
          rw [heq] at h
          simp only [optExprElseOK] at h
          simp [optStmtElseOK, stmtElseOK, optExprElseOK, h]
        · rfl
    · -- parseFnStatement
      intro st
      simp only [parseFnStatement]
      split
      · split
        · rename_i lit st2 heq
          have h := ihTail (curTok st) (advTok (advTok st))
          rw [heq] at h
          simpa [optExprElseOK, exprElseOK, optStmtElseOK, stmtElseOK] using h
        · rfl
      · rfl
    · -- parseExprStatement
      intro st
      simp only [parseExprStatement]
      split
      · rename_i e st1 heq
        have h := ihExpr NONE st
        rw [heq] at h
        simp only [optExprElseOK] at h
        simp [optStmtElseOK, stmtElseOK, optExprElseOK, h]
      · rfl

/-- Statement-list invariant for the top statement loop. -/
theorem parseProgram_preserves_else_invariant :
    ∀ fuel st, stmtsElseOK (parseProgram fuel st).1 = true := by
  intro fuel
  induction fuel with
  | zero => intro st; rfl
  | succ n ih =>
    intro st
    simp only [parseProgram]
    split
    · rfl
    · rcases hs : parseStatement n st with ⟨o, st1⟩
      rcases hp : parseProgram n st1 with ⟨rest, st2⟩
      have hstmt := (parser_preserves_else_invariant n).2.2.2.2.2.2.2.2.1 st
      rw [hs] at hstmt
      have hrest := ih st1
      rw [hp] at hrest
      cases o with
      | none => simpa using hrest
      | some s =>
        simp only [optStmtElseOK] at hstmt
        simpa [stmtsElseOK, hstmt] using hrest

/-- Diagnostics are only ever appended: every parser function leaves
the incoming diagnostics list as a prefix of the outgoing one (§4.4:
no error is dropped, the pass accumulates). -/
theorem parser_errs_monotone :
    ∀ fuel : Nat,
      (∀ mp st, st.errs <+: (parseExpression fuel mp st).2.errs) ∧
      (∀ st, st.errs <+: (parsePrefixPos fuel st).2.errs) ∧
      (∀ mp l st, st.errs <+: (parseClimb fuel mp l st).2.errs) ∧
      (∀ st, st.errs <+: (parseCallArgs fuel st).2.errs) ∧
      (∀ acc st, st.errs <+: (parseMoreArgs fuel acc st).2.errs) ∧
      (∀ tk st, st.errs <+: (parseFnTail fuel tk st).2.errs) ∧
      (∀ st, st.errs <+: (parseParams fuel st).2.errs) ∧
      (∀ acc st, st.errs <+: (parseMoreParams fuel acc st).2.errs) ∧
      (∀ st, st.errs <+: (parseBlock fuel st).2.errs) ∧
      (∀ acc st, st.errs <+: (parseBlockStmts fuel acc st).2.errs) ∧
      (∀ st, st.errs <+: (parseStatement fuel st).2.errs) ∧
      (∀ st, st.errs <+: (parseLet fuel st).2.errs) ∧
      (∀ st, st.errs <+: (parseReturn fuel st).2.errs) ∧
      (∀ st, st.errs <+: (parseIf fuel st).2.errs) ∧
      (∀ st, st.errs <+: (parseFnStatement fuel st).2.errs) ∧
      (∀ st, st.errs <+: (parseExprStatement fuel st).2.errs) := by
  intro fuel
  induction fuel with
  | zero =>
    exact ⟨fun _ _ => List.prefix_rfl, fun _ => List.prefix_rfl,
      fun _ _ _ => List.prefix_rfl, fun _ => List.prefix_rfl,
      fun _ _ => List.prefix_rfl, fun _ _ => List.prefix_rfl,
      fun _ => List.prefix_rfl, fun _ _ => List.prefix_rfl,
      fun _ => List.prefix_rfl, fun _ _ => List.prefix_rfl,
      fun _ => List.prefix_rfl, fun _ => List.prefix_rfl,
      fun _ => List.prefix_rfl, fun _ => List.prefix_rfl,
      fun _ => List.prefix_rfl, fun _ => List.prefix_rfl⟩
  | succ n ih =>
    obtain ⟨ihExpr, ihPre, ihClimb, ihArgs, ihMore, ihTail, ihParams, ihMoreP,
      ihBlock, ihBStmts, ihStmt, ihLet, ihRet, ihIf, ihFnS, ihExprS⟩ := ih
    have hExpr : ∀ mp st, st.errs <+: (parseExpression (n + 1) mp st).2.errs := by
      intro mp st
      simp only [parseExpression]
      split
      · rename_i st1 heq
        have h := ihPre st
        rw [heq] at h
        exact h
      · rename_i l st1 heq
        have h := ihPre st
        rw [heq] at h
        exact h.trans (ihClimb mp l st1)
    have hBlock : ∀ st, st.errs <+: (parseBlock (n + 1) st).2.errs := by
      intro st
      simp only [parseBlock]
      rcases hb : parseBlockStmts n [] (advTok st) with ⟨ss, st1⟩
      have h := ihBStmts [] (advTok st)
      rw [hb] at h
      exact h
    have hTail : ∀ tk st, st.errs <+: (parseFnTail (n + 1) tk st).2.errs := by
      intro tk st
      simp only [parseFnTail]
      split
      · split
        · rename_i ps st1 heq
          have h := ihParams (advTok st)
          rw [heq] at h
          split
          · rcases hb : parseBlock n st1 with ⟨b, st2⟩
            have h2 := ihBlock st1
            rw [hb] at h2
            exact h.trans h2
          · exact h.trans (List.prefix_append _ _)
        · rename_i st1 heq
          have h := ihParams (advTok st)
          rw [heq] at h
          exact h
      · exact List.prefix_append _ _
    refine ⟨hExpr, ?_, ?_, ?_, ?_, hTail, ?_, ?_, hBlock, ?_, ?_, ?_, ?_, ?_, ?_, ?_⟩
    · -- parsePrefixPos
      intro st
      simp only [parsePrefixPos]
      cases htype : (curTok st).type <;> simp only [htype]
      case IDENT => exact List.prefix_rfl
      case INT =>
        split
        · exact List.prefix_rfl
        · exact List.prefix_append _ _
      case FLOAT => exact List.prefix_rfl
      case STRING => exact List.prefix_rfl
      case TRUE => exact List.prefix_rfl
      case FALSE => exact List.prefix_rfl
      case MINUS =>
        split
        · rename_i r st1 heq
          have h := ihExpr PRE (advTok st)
          rw [heq] at h
          exact h
        · rename_i st1 heq
          have h := ihExpr PRE (advTok st)
          rw [heq] at h
          exact h
      case BANG =>
        split
        · rename_i r st1 heq
          have h := ihExpr PRE (advTok st)
          rw [heq] at h
          exact h
        · rename_i st1 heq
          have h := ihExpr PRE (advTok st)
          rw [heq] at h
          exact h
      case LPAREN =>
        split
        · rename_i e st1 heq
          have h := ihExpr NONE (advTok st)
          rw [heq] at h
          split
          · exact h
          · exact h.trans (List.prefix_append _ _)
        · rename_i st1 heq
          have h := ihExpr NONE (advTok st)
          rw [heq] at h
          exact h
      case FN => exact ihTail (curTok st) (advTok st)
      all_goals exact List.prefix_append _ _
    · -- parseClimb
      intro mp l st
      simp only [parseClimb]
      split
      · split
        · split
          · rename_i args st1 heq
            have h := ihArgs (advTok st)
            rw [heq] at h
            exact h.trans (ihClimb mp _ st1)
          · rename_i st1 heq
            have h := ihArgs (advTok st)
            rw [heq] at h
            exact h
        · split
          · rename_i r st1 heq
            have h := ihExpr (infixPrecOf (curTok st).type) (advTok st)
            rw [heq] at h
            exact h.trans (ihClimb mp _ st1)
          · rename_i st1 heq
            have h := ihExpr (infixPrecOf (curTok st).type) (advTok st)
            rw [heq] at h
            exact h
      · exact List.prefix_rfl
    · -- parseCallArgs
      intro st
      simp only [parseCallArgs]
      split
      · exact List.prefix_rfl
      · split
        · rename_i e st1 heq
          have h := ihExpr NONE st
          rw [heq] at h
          exact h.trans (ihMore [e] st1)
        · rename_i st1 heq
          have h := ihExpr NONE st
          rw [heq] at h
          exact h
    · -- parseMoreArgs
      intro acc st
      simp only [parseMoreArgs]
      split
      · split
        · rename_i e st1 heq
          have h := ihExpr NONE (advTok st)
          rw [heq] at h
          exact h.trans (ihMore (e :: acc) st1)
        · rename_i st1 heq
          have h := ihExpr NONE (advTok st)
          rw [heq] at h
          exact h
      · split
        · exact List.prefix_rfl
        · exact List.prefix_append _ _
    · -- parseParams
      intro st
      simp only [parseParams]
      split
      · exact List.prefix_rfl
      · split
        · exact ihMoreP _ (advTok st)
        · exact List.prefix_append _ _
    · -- parseMoreParams
      intro acc st
      simp only [parseMoreParams]
      split
      · split
        · exact ihMoreP _ (advTok (advTok st))
        · exact List.prefix_append _ _
      · split
        · exact List.prefix_rfl
        · exact List.prefix_append _ _
    · -- parseBlockStmts
      intro acc st
      simp only [parseBlockStmts]
      split
      · exact List.prefix_rfl
      · split
        · exact List.prefix_append _ _
        · split
          · rename_i s st1 heq
            have h := ihStmt st
            rw [heq] at h
            exact h.trans (ihBStmts (s :: acc) st1)
          · rename_i st1 heq
            have h := ihStmt st
            rw [heq] at h
            exact h.trans (ihBStmts acc st1)
    · -- parseStatement
      intro st
      simp only [parseStatement]
      cases htype : (curTok st).type <;> simp only [htype]
      case LET => exact ihLet st
      case FN => exact ihFnS st
      case RET => exact ihRet st
      case IF => exact ihIf st
      case EOF => exact List.prefix_rfl
      all_goals exact ihExprS st
    · -- parseLet
      intro st
      simp only [parseLet]
      split
      · rcases heq :
          (if (curTok (advTok (advTok st))).type = TokenType.ASSIGN then
            parseExpression n NONE (advTok (advTok (advTok st)))
          else (none, advTok (advTok st)) : Option Expr × PState) with ⟨init, st3⟩
        have hto3 : st.errs <+: st3.errs := by
          by_cases ha : (curTok (advTok (advTok st))).type = TokenType.ASSIGN
          · rw [if_pos ha] at heq
            have h := ihExpr NONE (advTok (advTok (advTok st)))
            rw [heq] at h
            exact h
          · rw [if_neg ha] at heq
            cases heq
            exact List.prefix_rfl
        split
        · exact hto3
        · exact hto3.trans (List.prefix_append _ _)
      · exact List.prefix_append _ _
    · -- parseReturn
      intro st
      simp only [parseReturn]
      split
      · exact List.prefix_rfl
      · split
        · rename_i e st2 heq
          have h := ihExpr NONE (advTok st)
          rw [heq] at h
          split
          · exact h
          · exact h.trans (List.prefix_append _ _)
        · rename_i st2 heq
          have h := ihExpr NONE (advTok st)
          rw [heq] at h
          exact h
    · -- parseIf
      intro st
      simp only [parseIf]
      rcases hc : parseExpression n NONE (advTok st) with ⟨cond, st2⟩
      have h1 := ihExpr NONE (advTok st)
      rw [hc] at h1
      split
      · rcases hbt : parseBlock n st2 with ⟨thenB, st3⟩
        have h2 := ihBlock st2
        rw [hbt] at h2
        split
        · split
          · rcases hi : parseIf n (advTok st3) with ⟨els, st5⟩
            have h3 := ihIf (advTok st3)
            rw [hi] at h3
            exact h1.trans (h2.trans h3)
          · split
            · rcases hb2 : parseBlock n (advTok st3) with ⟨b, st5⟩
              have h3 := ihBlock (advTok st3)
              rw [hb2] at h3
              exact h1.trans (h2.trans h3)
            · exact h1.trans (h2.trans (List.prefix_append _ _))
        · exact h1.trans h2
      · exact h1.trans (List.prefix_append _ _)
    · -- parseFnStatement
      intro st
      simp only [parseFnStatement]
      split
      · split
        · rename_i lit st2 heq
          have h := ihTail (curTok st) (advTok (advTok st))
          rw [heq] at h
          exact h
        · rename_i o st2 heq hne
          have h := ihTail (curTok st) (advTok (advTok st))
          rw [hne] at h
          exact h
      · exact List.prefix_append _ _
    · -- parseExprStatement
      intro st
      simp only [parseExprStatement]
      split
      · rename_i e st1 heq
        have h := ihExpr NONE st
        rw [heq] at h
        split
        · exact h
        · exact h
      · rename_i st1 heq
        have h := ihExpr NONE st
        rw [heq] at h
        exact h

/-- The top loop also only appends diagnostics. -/
theorem parseProgram_errs_monotone :
    ∀ fuel st, st.errs <+: (parseProgram fuel st).2.errs := by
  intro fuel
  induction fuel with
  | zero => intro st; exact List.prefix_rfl
  | succ n ih =>
    intro st
    simp only [parseProgram]
    split
    · exact List.prefix_rfl
    · rcases hs : parseStatement n st with ⟨o, st1⟩
      rcases hp : parseProgram n st1 with ⟨rest, st2⟩
      have h1 := (parser_errs_monotone n).2.2.2.2.2.2.2.2.2.2.1 st
      rw [hs] at h1
      have h2 := ih st1
      rw [hp] at h2
      cases o <;> exact h1.trans h2

end RoLang

namespace RoLang

/-! ## Lexing the rendered grammar -/

/-- Characters with different codes differ. -/
theorem char_ne_of_toNat_ne {c d : Char} (h : c.toNat ≠ d.toNat) : ¬(c = d) :=
  fun he => h (by rw [he])

theorem identStart_toNat {c : Char} (h : isIdentStartCh c = true) :
    (97 ≤ c.toNat ∧ c.toNat ≤ 122) ∨ (65 ≤ c.toNat ∧ c.toNat ≤ 90) ∨
      c.toNat = 95 := by
  simpa [isIdentStartCh, isLetterCh, or_assoc] using h

theorem digit_toNat {c : Char} (h : isDigitCh c = true) :
    48 ≤ c.toNat ∧ c.toNat ≤ 57 := by
  simpa [isDigitCh] using h

theorem identStart_identCh {c : Char} (h : isIdentStartCh c = true) :
    isIdentCh c = true := by
  simp only [isIdentStartCh, Bool.or_eq_true] at h
  rcases h with h | h <;> simp [isIdentCh, h]

theorem identStart_branches {c : Char} (h : isIdentStartCh c = true) :
    ¬(c = '\n') ∧ isWhitespaceCh c = false ∧ isDigitCh c = false := by
  have hb := identStart_toNat h
  have e10 : ('\n').toNat = 10 := rfl
  have e32 : (' ').toNat = 32 := rfl
  have e9 : ('\t').toNat = 9 := rfl
  have e13 : ('\r').toNat = 13 := rfl
  refine ⟨char_ne_of_toNat_ne (by omega), ?_, ?_⟩
  · simp only [isWhitespaceCh, Bool.or_eq_false_iff, decide_eq_false_iff_not]
    exact ⟨⟨⟨char_ne_of_toNat_ne (by omega), char_ne_of_toNat_ne (by omega)⟩,
      char_ne_of_toNat_ne (by omega)⟩, char_ne_of_toNat_ne (by omega)⟩
  · simp only [isDigitCh]
    simp only [Bool.and_eq_false_iff, decide_eq_false_iff_not]
    omega

theorem digit_branches {c : Char} (h : isDigitCh c = true) :
    ¬(c = '\n') ∧ isWhitespaceCh c = false := by
  have hb := digit_toNat h
  have e10 : ('\n').toNat = 10 := rfl
  have e32 : (' ').toNat = 32 := rfl
  have e9 : ('\t').toNat = 9 := rfl
  have e13 : ('\r').toNat = 13 := rfl
  refine ⟨char_ne_of_toNat_ne (by omega), ?_⟩
  simp only [isWhitespaceCh, Bool.or_eq_false_iff, decide_eq_false_iff_not]
  exact ⟨⟨⟨char_ne_of_toNat_ne (by omega), char_ne_of_toNat_ne (by omega)⟩,
    char_ne_of_toNat_ne (by omega)⟩, char_ne_of_toNat_ne (by omega)⟩

theorem takeWhile_run {p : Char → Bool} {xs : List Char} {y : Char}
    (ys : List Char) (hall : xs.all p = true) (hy : p y = false) :
    (xs ++ y :: ys).takeWhile p = xs ∧ (xs ++ y :: ys).dropWhile p = y :: ys := by
  induction xs with
  | nil => simp [List.takeWhile_cons, List.dropWhile_cons, hy]
  | cons x xs ih =>
    simp only [List.all_cons, Bool.and_eq_true] at hall
    have := ih hall.2
    simp [List.takeWhile_cons, List.dropWhile_cons, hall.1, this.1, this.2]

theorem lexGo_identWord (name : String) (c : Char) (cs rest : List Char)
    (hstart : isIdentStartCh c = true) (hall : cs.all isIdentCh = true)
    (fuel line col : Nat) (acc : List Token) :
    lexGo name (fuel + 2) ((c :: cs) ++ ' ' :: rest) line col acc =
      lexGo name fuel rest line (col + (c :: cs).length + 1)
        (mkTok name line col (LookUpKeyword (c :: cs).asString)
          (c :: cs).asString :: acc) := by
  obtain ⟨h10, hws, hdg⟩ := identStart_branches hstart
  have hspace : isIdentCh ' ' = false := by decide
  have hallc : (c :: cs).all isIdentCh = true := by
    simp [List.all_cons, identStart_identCh hstart, hall]
  obtain ⟨htake, hdrop⟩ := takeWhile_run (p := isIdentCh) rest hallc hspace
  rw [show ((c :: cs) ++ ' ' :: rest : List Char) = c :: (cs ++ ' ' :: rest)
    from rfl] at htake hdrop
  have hsp10 : ¬(' ' = '\n') := by decide
  have hspws : isWhitespaceCh ' ' = true := by decide
  show lexGo name (fuel + 1 + 1) (c :: (cs ++ ' ' :: rest)) line col acc = _
  rw [lexGo]
  rw [if_neg h10, if_neg (by simp [hws]), if_neg (by simp [hdg]),
    if_pos hstart]
  simp only [htake, hdrop]
  rw [lexGo]
  rw [if_neg hsp10, if_pos hspws]

theorem lexGo_intWord (name : String) (c : Char) (cs rest : List Char)
    (hc : isDigitCh c = true) (hall : cs.all isDigitCh = true)
    (fuel line col : Nat) (acc : List Token) :
    lexGo name (fuel + 2) ((c :: cs) ++ ' ' :: rest) line col acc =
      lexGo name fuel rest line (col + (c :: cs).length + 1)
        (mkTok name line col TokenType.INT (c :: cs).asString :: acc) := by
  obtain ⟨h10, hws⟩ := digit_branches hc
  have hspace : isDigitCh ' ' = false := by decide
  have hallc : (c :: cs).all isDigitCh = true := by
    simp [List.all_cons, hc, hall]
  obtain ⟨htake, hdrop⟩ := takeWhile_run (p := isDigitCh) rest hallc hspace
  rw [show ((c :: cs) ++ ' ' :: rest : List Char) = c :: (cs ++ ' ' :: rest)
    from rfl] at htake hdrop
  have hsp10 : ¬(' ' = '\n') := by decide
  have hspws : isWhitespaceCh ' ' = true := by decide
  show lexGo name (fuel + 1 + 1) (c :: (cs ++ ' ' :: rest)) line col acc = _
  rw [lexGo]
  rw [if_neg h10, if_neg (by simp [hws]), if_pos hc]
  simp only [htake, hdrop]
  split
  · rename_i d ds heq
    exfalso
    simp at heq
  · rw [lexGo]
    rw [if_neg hsp10, if_pos hspws]

theorem lexGo_word (name : String) (t : TokenType) (w : String)
    (hw : wordOK t w = true) (rest : List Char)
    (fuel line col : Nat) (acc : List Token) :
    lexGo name (fuel + 2) (w.data ++ ' ' :: rest) line col acc =
      lexGo name fuel rest line (col + w.length + 1)
        (mkTok name line col t w :: acc) := by
  cases t <;> simp only [wordOK] at hw
  case IDENT =>
    simp only [validIdentWord, Bool.and_eq_true, decide_eq_true_eq] at hw
    obtain ⟨hword, hkw⟩ := hw
    rcases hd : w.data with _ | ⟨c, cs⟩
    · rw [hd] at hword; simp at hword
    · rw [hd] at hword
      simp only [Bool.and_eq_true] at hword
      have hback : (c :: cs).asString = w := by
        rw [show (c :: cs) = w.data from hd.symm]
        rfl
      have hlen : (c :: cs).length = w.length := by
        rw [show (c :: cs) = w.data from hd.symm]
        rfl
      have key := lexGo_identWord name c cs rest hword.1 hword.2 fuel line col acc
      rw [hback, hlen, hkw] at key
      exact key
  case INT =>
    simp only [Bool.and_eq_true] at hw
    obtain ⟨hne, hall⟩ := hw
    rcases hd : w.data with _ | ⟨c, cs⟩
    · rw [hd] at hne; simp at hne
    · rw [hd] at hall
      simp only [List.all_cons, Bool.and_eq_true] at hall
      have hback : (c :: cs).asString = w := by
        rw [show (c :: cs) = w.data from hd.symm]
        rfl
      have hlen : (c :: cs).length = w.length := by
        rw [show (c :: cs) = w.data from hd.symm]
        rfl
      have key := lexGo_intWord name c cs rest hall.1 hall.2 fuel line col acc
      rw [hback, hlen] at key
      exact key
  all_goals
    first
      | exact absurd hw (by decide)
      | (have hwe := eq_of_beq hw
         subst hwe
         rfl)

theorem wordOK_pos {t : TokenType} {w : String} (h : wordOK t w = true) :
    0 < w.length := by
  cases t <;> simp only [wordOK] at h
  case IDENT =>
    simp only [validIdentWord, Bool.and_eq_true] at h
    show 0 < w.data.length
    rcases hd : w.data with _ | ⟨c, cs⟩
    · rw [hd] at h; simp at h
    · simp
  case INT =>
    simp only [Bool.and_eq_true] at h
    show 0 < w.data.length
    rcases hd : w.data with _ | ⟨c, cs⟩
    · rw [hd] at h; simp at h
    · simp
  all_goals
    first
      | exact absurd h (by decide)
      | (have hwe := eq_of_beq h
         subst hwe
         decide)

theorem lexGo_render :
    ∀ (keys : List (TokenType × String)) (fuel line col : Nat)
      (acc : List Token) (name : String),
      (∀ k ∈ keys, wordOK k.1 k.2 = true) →
      (renderToks keys).length < fuel →
      ∃ ts, lexGo name fuel (renderToks keys).data line col acc =
        acc.reverse ++ ts ∧ ts.map tokKey = keys ++ [(TokenType.EOF, "")] := by
  intro keys
  induction keys with
  | nil =>
    intro fuel line col acc name _ hf
    cases fuel with
    | zero => simp [renderToks] at hf
    | succ f =>
      refine ⟨[mkTok name line col TokenType.EOF ""], ?_, rfl⟩
      show lexGo name (f + 1) [] line col acc = _
      rw [lexGo]
      simp
  | cons k ks ih =>
    intro fuel line col acc name hwf hf
    have hk := hwf k (List.mem_cons_self k ks)
    have hpos := wordOK_pos hk
    have hlen : (renderToks (k :: ks)).length =
        k.2.length + 1 + (renderToks ks).length := by
      simp [renderToks, String.length_append]
      rfl
    have hdata : (renderToks (k :: ks)).data =
        k.2.data ++ ' ' :: (renderToks ks).data := by
      simp [renderToks, String.data_append]
    cases fuel with
    | zero => simp at hf
    | succ f1 =>
      cases f1 with
      | zero => rw [hlen] at hf; omega
      | succ f =>
        rw [hdata]
        have hrest : (renderToks ks).length < f := by rw [hlen] at hf; omega
        obtain ⟨ts, heq, hmap⟩ := ih f line (col + k.2.length + 1)
          (mkTok name line col k.1 k.2 :: acc) name
          (fun x hx => hwf x (List.mem_cons_of_mem _ hx)) hrest
        refine ⟨mkTok name line col k.1 k.2 :: ts, ?_, ?_⟩
        · have step1 := lexGo_word name k.1 k.2 hk ((renderToks ks).data) f line col acc
          have e2 : (f + 1 + 1 : Nat) = f + 2 := rfl
          rw [e2, step1, heq]
          simp
        · rw [List.map_cons, hmap]
          rfl

theorem lex_render (keys : List (TokenType × String)) (name : String)
    (hwf : ∀ k ∈ keys, wordOK k.1 k.2 = true) :
    ∃ ts, lex name (renderToks keys) = ts ∧
      ts.map tokKey = keys ++ [(TokenType.EOF, "")] := by
  obtain ⟨ts, heq, hmap⟩ := lexGo_render keys ((renderToks keys).length + 1)
    1 1 [] name hwf (by omega)
  exact ⟨ts, by simpa [lex] using heq, hmap⟩

end RoLang

namespace RoLang

/-! ## Parser completeness on the grammar: infrastructure -/

/-- Splitting a token list along a key-list head. -/
theorem keys_cons {ts : List Token} {ty : TokenType} {w : String}
    {ks : List (TokenType × String)}
    (h : ts.map tokKey = (ty, w) :: ks) :
    ∃ tk ts', ts = tk :: ts' ∧ tk.type = ty ∧ tk.word = w ∧
      ts'.map tokKey = ks := by
  cases ts with
  | nil => cases h
  | cons tk ts' =>
    have h1 : tokKey tk = (ty, w) ∧ ts'.map tokKey = ks := by
      simpa using h
    exact ⟨tk, ts', rfl, congrArg Prod.fst h1.1, congrArg Prod.snd h1.1, h1.2⟩

/-- Splitting a token list along a key-list concatenation. -/
theorem keys_split {ts : List Token} {A B : List (TokenType × String)}
    (h : ts.map tokKey = A ++ B) :
    ∃ t1 t2, ts = t1 ++ t2 ∧ t1.map tokKey = A ∧ t2.map tokKey = B :=
  List.map_eq_append_iff.mp h

/-- An empty key list forces an empty token list. -/
theorem keys_nil {ts : List Token} (h : ts.map tokKey = []) : ts = [] :=
  List.map_eq_nil_iff.mp h

/-- The first token class of a rendered expression: always a class
with a prefix rule, and not `fn` when the expression may open a
statement. -/
theorem exprToks_shape (e : GExpr) :
    ∃ ty w tl, exprToks e = (ty, w) :: tl ∧
      (ty = TokenType.IDENT ∨ ty = TokenType.INT ∨ ty = TokenType.TRUE ∨
        ty = TokenType.FALSE ∨ ty = TokenType.MINUS ∨ ty = TokenType.BANG ∨
        ty = TokenType.LPAREN ∨ ty = TokenType.FN) ∧
      (notFnStart e = true → ty ≠ TokenType.FN) := by
  rcases e with ⟨h, c⟩
  cases h with
  | hvar s =>
    exact ⟨TokenType.IDENT, s, callToks c, rfl, by decide, fun _ => by decide⟩
  | hint s =>
    exact ⟨TokenType.INT, s, callToks c, rfl, by decide, fun _ => by decide⟩
  | hbool b =>
    cases b with
    | true =>
      exact ⟨TokenType.TRUE, "true", callToks c, rfl, by decide, fun _ => by decide⟩
    | false =>
      exact ⟨TokenType.FALSE, "false", callToks c, rfl, by decide, fun _ => by decide⟩
  | hneg e1 =>
    exact ⟨TokenType.MINUS, "-", exprToks e1 ++ callToks c, rfl, by decide,
      fun _ => by decide⟩
  | hnot e1 =>
    exact ⟨TokenType.BANG, "!", exprToks e1 ++ callToks c, rfl, by decide,
      fun _ => by decide⟩
  | hbin op l r =>
    refine ⟨TokenType.LPAREN, "(",
      (exprToks l ++ (op, (binOpWord op).getD "") :: exprToks r ++
        [(TokenType.RPAREN, ")")]) ++ callToks c, ?_, by decide,
      fun _ => by decide⟩
    simp [exprToks, headToks]
  | hfn ps b =>
    refine ⟨TokenType.FN, "fn",
      ((TokenType.LPAREN, "(") :: paramToks ps ++
        (TokenType.LBRACE, "\x7b") :: stmtsToks b ++ [(TokenType.RBRACE, "\x7d")]) ++
          callToks c, ?_, by decide, ?_⟩
    · simp [exprToks, headToks]
    · intro hn
      simp [notFnStart] at hn

/-- The first token class of a rendered statement: never a closing
brace, the end of input, or an else keyword. -/
theorem stmtToks_shape (s : GStmt) :
    ∃ ty w tl, stmtToks s = (ty, w) :: tl ∧ ty ≠ TokenType.RBRACE ∧
      ty ≠ TokenType.EOF ∧ ty ≠ TokenType.ELSE := by
  cases s with
  | slet x e =>
    exact ⟨TokenType.LET, "let", _, rfl, by decide, by decide, by decide⟩
  | sletNoInit x =>
    exact ⟨TokenType.LET, "let", _, rfl, by decide, by decide, by decide⟩
  | sret e =>
    exact ⟨TokenType.RET, "return", _, rfl, by decide, by decide, by decide⟩
  | sretVoid =>
    exact ⟨TokenType.RET, "return", _, rfl, by decide, by decide, by decide⟩
  | sexpr e =>
    obtain ⟨ty, w, tl, heq, hmem, _⟩ := exprToks_shape e
    refine ⟨ty, w, tl ++ [(TokenType.SEMCOL, ";")], ?_, ?_, ?_, ?_⟩
    · simp [stmtToks, heq]
    all_goals
      rcases hmem with h | h | h | h | h | h | h | h <;> subst h <;> decide
  | sif c t els =>
    exact ⟨TokenType.IF, "if", _, rfl, by decide, by decide, by decide⟩
  | sfn f ps b =>
    exact ⟨TokenType.FN, "fn", _, rfl, by decide, by decide, by decide⟩

/-- Statement dispatch falls through to the expression-statement branch
for every non-keyword, non-EOF class. -/
theorem parseStatement_other (f : Nat) (st : PState)
    (h1 : (curTok st).type ≠ TokenType.LET)
    (h2 : (curTok st).type ≠ TokenType.FN)
    (h3 : (curTok st).type ≠ TokenType.RET)
    (h4 : (curTok st).type ≠ TokenType.IF)
    (h5 : (curTok st).type ≠ TokenType.EOF) :
    parseStatement (f + 1) st = parseExprStatement f st := by
  cases ht : (curTok st).type
  <;> first
    | exact absurd ht h1
    | exact absurd ht h2
    | exact absurd ht h3
    | exact absurd ht h4
    | exact absurd ht h5
    | simp [parseStatement, ht]

/-- The climbing loop stops at once on a token whose binding power does
not exceed the minimum. -/
theorem parseClimb_le (fuel minPrec : Nat) (left : Expr) (st : PState)
    (h : infixPrecOf (curTok st).type ≤ minPrec) :
    parseClimb fuel minPrec left st = (some left, st) := by
  cases fuel with
  | zero => rfl
  | succ f =>
    simp only [parseClimb]
    rw [if_neg (by omega)]

/-- The head token of a segment matched to a cons-shaped key list. -/
theorem headD_of_keys {ts rest : List Token} {ty : TokenType} {w : String}
    {tl : List (TokenType × String)}
    (h : ts.map tokKey = (ty, w) :: tl) :
    ((ts ++ rest).headD eofToken).type = ty := by
  obtain ⟨tk, ts', rfl, hty, _, _⟩ := keys_cons h
  simpa using hty

/-- Continuation-argument token lists open with a comma or the closing
parenthesis. -/
theorem moreArgToks_shape (a : GArgs) :
    ∃ ty w tl, moreArgToks a = (ty, w) :: tl ∧
      (ty = TokenType.COMMA ∨ ty = TokenType.RPAREN) := by
  cases a with
  | anil => exact ⟨TokenType.RPAREN, ")", [], rfl, Or.inr rfl⟩
  | acons e r =>
    exact ⟨TokenType.COMMA, ",", exprToks e ++ moreArgToks r, rfl, Or.inl rfl⟩

/-- A block-body token list (statements plus the closing brace) never
opens with `else` or the end of input. -/
theorem stmtsRB_shape (ss : GStmts) :
    ∃ ty w tl, stmtsToks ss ++ [(TokenType.RBRACE, "\x7d")] = (ty, w) :: tl ∧
      ty ≠ TokenType.ELSE ∧ ty ≠ TokenType.EOF := by
  cases ss with
  | snil => exact ⟨TokenType.RBRACE, "\x7d", [], rfl, by decide, by decide⟩
  | scons s r =>
    obtain ⟨ty, w, tl, heq, _, h2, h3⟩ := stmtToks_shape s
    refine ⟨ty, w, tl ++ (stmtsToks r ++ [(TokenType.RBRACE, "\x7d")]), ?_, h3, h2⟩
    simp [stmtsToks, heq]

/-- Every grammar value has positive size. -/
theorem one_le_sizeOf_stmts (t : GStmts) : 1 ≤ sizeOf t := by
  cases t <;> simp <;> omega

/-- Every else part has positive size. -/
theorem one_le_sizeOf_else (els : GElse) : 1 ≤ sizeOf els := by
  cases els <;> simp <;> omega

/-- Every parameter list has positive size. -/
theorem one_le_sizeOf_params (ps : GParams) : 1 ≤ sizeOf ps := by
  cases ps <;> simp <;> omega

/-- Parameter continuations are consumed exactly. -/
theorem parseMoreParams_complete :
    ∀ (n : Nat) (p : GParams), sizeOf p ≤ n →
    ∀ (acc : List Identifier) (fuel : Nat)
      (ts rest : List Token) (errs : List String),
      ts.map tokKey = moreParamToks p →
      8 * ts.length + 16 ≤ fuel →
      ∃ vs, parseMoreParams fuel acc ⟨ts ++ rest, errs⟩ =
        (some vs, ⟨rest, errs⟩) := by
  intro n
  induction n with
  | zero =>
    intro p hp
    cases p <;> simp at hp
  | succ n ih =>
    intro p hp acc fuel ts rest errs hk hf
    cases p with
    | pnil =>
      obtain ⟨rp, ts', rfl, hty, hw, hk'⟩ := keys_cons hk
      obtain rfl := keys_nil hk'
      obtain ⟨f, rfl⟩ : ∃ k, fuel = k + 1 := ⟨fuel - 1, by omega⟩
      refine ⟨acc.reverse, ?_⟩
      simp [parseMoreParams, curTok, advTok, hty]
    | pcons x r =>
      obtain ⟨ct, ts1, rfl, hcty, hcw, hk1⟩ := keys_cons hk
      obtain ⟨it, ts2, rfl, hity, hiw, hk2⟩ := keys_cons hk1
      obtain ⟨f, rfl⟩ : ∃ k, fuel = k + 1 := ⟨fuel - 1, by omega⟩
      have hsz : sizeOf r ≤ n := by
        simp [GParams.pcons.sizeOf_spec] at hp
        omega
      obtain ⟨vs, hvs⟩ := ih r hsz (⟨it, it.word⟩ :: acc) f ts2 rest errs hk2
        (by simp at hf ⊢; omega)
      refine ⟨vs, ?_⟩
      simp [parseMoreParams, curTok, advTok, hcty, hity]
      exact hvs

/-- Parameter lists are consumed exactly. -/
theorem parseParams_complete :
    ∀ (p : GParams) (fuel : Nat) (ts rest : List Token) (errs : List String),
      ts.map tokKey = paramToks p →
      8 * ts.length + 16 ≤ fuel →
      ∃ vs, parseParams fuel ⟨ts ++ rest, errs⟩ = (some vs, ⟨rest, errs⟩) := by
  intro p fuel ts rest errs hk hf
  cases p with
  | pnil =>
    obtain ⟨rp, ts', rfl, hty, hw, hk'⟩ := keys_cons hk
    obtain rfl := keys_nil hk'
    obtain ⟨f, rfl⟩ : ∃ k, fuel = k + 1 := ⟨fuel - 1, by omega⟩
    refine ⟨[], ?_⟩
    simp [parseParams, curTok, advTok, hty]
  | pcons x r =>
    obtain ⟨it, ts1, rfl, hity, hiw, hk1⟩ := keys_cons hk
    obtain ⟨f, rfl⟩ : ∃ k, fuel = k + 1 := ⟨fuel - 1, by omega⟩
    obtain ⟨vs, hvs⟩ := parseMoreParams_complete (sizeOf r) r (le_refl _)
      [⟨it, it.word⟩] f ts1 rest errs hk1 (by simp at hf ⊢; omega)
    refine ⟨vs, ?_⟩
    simp [parseParams, curTok, advTok, hity]
    exact hvs

end RoLang

namespace RoLang

/-! ## Parser completeness on the grammar: the simultaneous induction

Each lemma proves one component of `BigConj` from the full conjunction
at every smaller size. -/

/-- Heads: `parsePrefixPos` consumes a head's tokens exactly. -/
theorem bigstep_H (n : Nat) (ih : ∀ m, m < n → BigConj m) :
    ∀ h : GHead, sizeOf h ≤ n → PHProp h := by
  intro h hn hwf fuel ts rest errs hk hf hng
  cases h with
  | hvar s =>
    simp only [headToks] at hk
    obtain ⟨tk, ts', rfl, hty, hw, hk'⟩ := keys_cons hk
    obtain rfl := keys_nil hk'
    obtain ⟨f, rfl⟩ : ∃ k, fuel = k + 1 := ⟨fuel - 1, by omega⟩
    exact ⟨.identifier ⟨tk, tk.word⟩, by simp [parsePrefixPos, curTok, advTok, hty]⟩
  | hint s =>
    simp only [headToks] at hk
    obtain ⟨tk, ts', rfl, hty, hw, hk'⟩ := keys_cons hk
    obtain rfl := keys_nil hk'
    obtain ⟨f, rfl⟩ : ∃ k, fuel = k + 1 := ⟨fuel - 1, by omega⟩
    simp only [wfH, validIntWord, Bool.and_eq_true, decide_eq_true_eq] at hwf
    have hle : natOfDigits tk.word.data ≤ int64Max := by rw [hw]; exact hwf.2
    exact ⟨.integerLiteral tk (Int.ofNat (natOfDigits tk.word.data)),
      by simp [parsePrefixPos, curTok, advTok, hty, hle]⟩
  | hbool b =>
    cases b with
    | true =>
      simp only [headToks] at hk
      obtain ⟨tk, ts', rfl, hty, hw, hk'⟩ := keys_cons hk
      obtain rfl := keys_nil hk'
      obtain ⟨f, rfl⟩ : ∃ k, fuel = k + 1 := ⟨fuel - 1, by omega⟩
      exact ⟨.boolLiteral tk true, by simp [parsePrefixPos, curTok, advTok, hty]⟩
    | false =>
      simp only [headToks] at hk
      obtain ⟨tk, ts', rfl, hty, hw, hk'⟩ := keys_cons hk
      obtain rfl := keys_nil hk'
      obtain ⟨f, rfl⟩ : ∃ k, fuel = k + 1 := ⟨fuel - 1, by omega⟩
      exact ⟨.boolLiteral tk false, by simp [parsePrefixPos, curTok, advTok, hty]⟩
  | hneg e1 =>
    simp only [headToks] at hk
    obtain ⟨tk, ts1, rfl, hty, hw, hk1⟩ := keys_cons hk
    simp only [wfH] at hwf
    simp at hn
    obtain ⟨f, rfl⟩ : ∃ k, fuel = k + 1 := ⟨fuel - 1, by omega⟩
    have hle := hng rfl
    obtain ⟨v, f1, heqE, _⟩ := (ih (n - 1) (by omega)).2.1 e1 (by omega) hwf f PRE
      ts1 rest errs hk1 (by simp at hf ⊢; omega) (le_refl _) (fun _ => hle)
    have hstop := parseClimb_le f1 PRE v ⟨rest, errs⟩ (by simpa [curTok] using hle)
    refine ⟨.prefixExpression tk tk.word v, ?_⟩
    simp only [parsePrefixPos, List.cons_append, curTok, List.headD_cons, hty,
      advTok, List.tail_cons]
    rw [heqE, hstop]
  | hnot e1 =>
    simp only [headToks] at hk
    obtain ⟨tk, ts1, rfl, hty, hw, hk1⟩ := keys_cons hk
    simp only [wfH] at hwf
    simp at hn
    obtain ⟨f, rfl⟩ : ∃ k, fuel = k + 1 := ⟨fuel - 1, by omega⟩
    have hle := hng rfl
    obtain ⟨v, f1, heqE, _⟩ := (ih (n - 1) (by omega)).2.1 e1 (by omega) hwf f PRE
      ts1 rest errs hk1 (by simp at hf ⊢; omega) (le_refl _) (fun _ => hle)
    have hstop := parseClimb_le f1 PRE v ⟨rest, errs⟩ (by simpa [curTok] using hle)
    refine ⟨.prefixExpression tk tk.word v, ?_⟩
    simp only [parsePrefixPos, List.cons_append, curTok, List.headD_cons, hty,
      advTok, List.tail_cons]
    rw [heqE, hstop]
  | hbin op l r =>
    simp only [headToks, List.cons_append, List.append_assoc] at hk
    obtain ⟨lp, ts0, rfl, hlpty, hlpw, hk0⟩ := keys_cons hk
    obtain ⟨tsL, ts1, rfl, hkL, hk1⟩ := keys_split hk0
    obtain ⟨opTok, ts2, rfl, hopty, hopw, hk2⟩ := keys_cons hk1
    obtain ⟨tsR, ts3, rfl, hkR, hk3⟩ := keys_split hk2
    obtain ⟨rp, ts4, rfl, hrpty, hrpw, hk4⟩ := keys_cons hk3
    obtain rfl := keys_nil hk4
    simp only [wfH, Bool.and_eq_true] at hwf
    obtain ⟨⟨hop, hwl⟩, hwr⟩ := hwf
    simp at hn hf
    have hP5 : PRE = 5 := rfl
    have hN0 : NONE = 0 := rfl
    have hprec1 : 1 ≤ infixPrecOf op := by
      cases op <;> simp [binOpWord] at hop <;> decide
    have hprec4 : infixPrecOf op ≤ 4 := by
      cases op <;> simp [binOpWord] at hop <;> decide
    have hopNotLp : ¬(op = TokenType.LPAREN) := by
      cases op <;> simp [binOpWord] at hop <;> decide
    obtain ⟨f, rfl⟩ : ∃ k, fuel = k + 1 := ⟨fuel - 1, by omega⟩
    obtain ⟨vL, f2, heqL, hfL⟩ := (ih (n - 1) (by omega)).2.1 l (by omega) hwl f NONE
      tsL (opTok :: (tsR ++ rp :: rest)) errs hkL (by omega) (by decide)
      (fun _ => by simp only [List.headD_cons]; rw [hopty]; omega)
    obtain ⟨f3, rfl⟩ : ∃ k, f2 = k + 1 := ⟨f2 - 1, by omega⟩
    obtain ⟨vR, f4, heqR, _⟩ := (ih (n - 1) (by omega)).2.1 r (by omega) hwr f3
      (infixPrecOf op) tsR (rp :: rest) errs hkR (by omega) (by omega)
      (fun _ => by simp only [List.headD_cons]; rw [hrpty]; decide)
    have hstopR := parseClimb_le f4 (infixPrecOf op) vR ⟨rp :: rest, errs⟩
      (by simp only [curTok, List.headD_cons]; rw [hrpty]; exact Nat.zero_le _)
    have hstopI := parseClimb_le f3 NONE
      (Expr.infixExpression opTok opTok.word vL vR) ⟨rp :: rest, errs⟩
      (by simp only [curTok, List.headD_cons]; rw [hrpty]; exact Nat.le_refl _)
    have step2 : parseClimb (f3 + 1) NONE vL ⟨opTok :: (tsR ++ rp :: rest), errs⟩ =
        (some (Expr.infixExpression opTok opTok.word vL vR), ⟨rp :: rest, errs⟩) := by
      simp only [parseClimb, curTok, List.headD_cons, hopty]
      rw [if_pos (by omega), if_neg hopNotLp]
      simp only [advTok, List.tail_cons]
      rw [heqR, hstopR]
      exact hstopI
    have stepE : parseExpression f NONE ⟨tsL ++ (opTok :: (tsR ++ rp :: rest)), errs⟩ =
        (some (Expr.infixExpression opTok opTok.word vL vR), ⟨rp :: rest, errs⟩) := by
      rw [heqL, step2]
    refine ⟨Expr.infixExpression opTok opTok.word vL vR, ?_⟩
    simp only [parsePrefixPos, List.cons_append, List.append_assoc,
      List.singleton_append, List.nil_append, curTok, List.headD_cons, hlpty,
      advTok, List.tail_cons]
    rw [stepE]
    simp [curTok, advTok, hrpty]
  | hfn ps b =>
    simp only [headToks, List.cons_append, List.append_assoc] at hk
    obtain ⟨fnTk, ts1, rfl, hty, hw, hk1⟩ := keys_cons hk
    simp only [wfH, Bool.and_eq_true] at hwf
    simp at hn
    obtain ⟨f, rfl⟩ : ∃ k, fuel = k + 1 := ⟨fuel - 1, by omega⟩
    obtain ⟨lit, hlit⟩ := (ih (n - 1) (by omega)).2.2.2.2.2.2.2.2 ps b (by omega)
      hwf.1 hwf.2 f ts1 rest errs fnTk hk1 (by simp at hf ⊢; omega)
    refine ⟨Expr.functionLiteral lit, ?_⟩
    simp only [parsePrefixPos, List.cons_append, curTok, List.headD_cons, hty,
      advTok, List.tail_cons]
    exact hlit

/-- Expressions: `parseExpression` reaches a residual climb on exactly
the remaining input. -/
theorem bigstep_Ex (n : Nat) (ih : ∀ m, m < n → BigConj m) :
    ∀ e : GExpr, sizeOf e ≤ n → PExProp e := by
  intro e hn hwf fuel minPrec ts rest errs hk hf hmp hng
  rcases e with ⟨h, c⟩
  simp only [exprToks] at hk
  obtain ⟨tsH, tsC, rfl, hkH, hkC⟩ := keys_split hk
  simp only [wfE, Bool.and_eq_true] at hwf
  obtain ⟨⟨hwH, hcOK⟩, hwC⟩ := hwf
  simp at hn
  simp only [negHeadE] at hng
  obtain ⟨f, rfl⟩ : ∃ k, fuel = k + 1 := ⟨fuel - 1, by omega⟩
  have hpre : negHead h = true →
      infixPrecOf (((tsC ++ rest).headD eofToken)).type ≤ PRE := by
    intro hnh
    cases c with
    | cnone =>
      simp only [callToks] at hkC
      obtain rfl := keys_nil hkC
      simpa using hng hnh
    | csome a => simp [callOK, hnh] at hcOK
  obtain ⟨vH, heqH⟩ := (ih (n - 1) (by omega)).1 h (by omega) hwH f tsH (tsC ++ rest)
    errs hkH (by simp at hf ⊢; omega) hpre
  obtain ⟨v, f', heqC, hfC⟩ := (ih (n - 1) (by omega)).2.2.1 c (by omega) hwC vH f
    minPrec tsC rest errs hkC (by simp at hf ⊢; omega) hmp
  refine ⟨v, f', ?_, by simp at hf ⊢; omega⟩
  simp only [parseExpression, List.append_assoc]
  rw [heqH]
  exact heqC

/-- Call suffixes: the climbing loop steps through a call and resumes
on exactly the remaining input. -/
theorem bigstep_C (n : Nat) (ih : ∀ m, m < n → BigConj m) :
    ∀ c : GCall, sizeOf c ≤ n → PCProp c := by
  intro c hn hwf left fuel minPrec ts rest errs hk hf hmp
  cases c with
  | cnone =>
    simp only [callToks] at hk
    obtain rfl := keys_nil hk
    exact ⟨left, fuel, by simp, by omega⟩
  | csome a =>
    simp only [callToks] at hk
    obtain ⟨lp, ts1, rfl, hlpty, hlpw, hk1⟩ := keys_cons hk
    simp only [wfC] at hwf
    simp at hn
    obtain ⟨f, rfl⟩ : ∃ k, fuel = k + 1 := ⟨fuel - 1, by omega⟩
    obtain ⟨args, hargs⟩ := (ih (n - 1) (by omega)).2.2.2.1 a (by omega) hwf f ts1
      rest errs hk1 (by simp at hf ⊢; omega)
    have hcall : infixPrecOf TokenType.LPAREN > minPrec := by
      have h6 : infixPrecOf TokenType.LPAREN = 6 := rfl
      have h5 : PRE = 5 := rfl
      omega
    refine ⟨Expr.callExpression lp left args, f, ?_, by simp; omega⟩
    simp only [parseClimb, List.cons_append, curTok, List.headD_cons, hlpty]
    rw [if_pos hcall]
    simp only [advTok, List.tail_cons]
    rw [hargs]
    rfl

/-- Argument lists: `parseCallArgs` consumes the arguments and the
closing parenthesis exactly. -/
theorem bigstep_A (n : Nat) (ih : ∀ m, m < n → BigConj m) :
    ∀ a : GArgs, sizeOf a ≤ n → PAProp a := by
  intro a hn hwf fuel ts rest errs hk hf
  cases a with
  | anil =>
    simp only [argToks] at hk
    obtain ⟨rp, ts', rfl, hty, hw, hk'⟩ := keys_cons hk
    obtain rfl := keys_nil hk'
    obtain ⟨f, rfl⟩ : ∃ k, fuel = k + 1 := ⟨fuel - 1, by omega⟩
    refine ⟨[], ?_⟩
    simp [parseCallArgs, curTok, advTok, hty]
  | acons e r =>
    simp only [argToks] at hk
    obtain ⟨tsE, tsM, rfl, hkE, hkM⟩ := keys_split hk
    simp only [wfA, Bool.and_eq_true] at hwf
    obtain ⟨hwE, hwR⟩ := hwf
    simp at hn
    obtain ⟨f, rfl⟩ : ∃ k, fuel = k + 1 := ⟨fuel - 1, by omega⟩
    obtain ⟨ty, w, tl, hsh, hmem, _⟩ := exprToks_shape e
    have hkE' := hkE
    rw [hsh] at hkE'
    obtain ⟨tkE, tsE1, heqE0, htkE, _, _⟩ := keys_cons hkE'
    subst heqE0
    obtain ⟨ty2, w2, tl2, hsh2, hmem2⟩ := moreArgToks_shape r
    have hkM' := hkM
    rw [hsh2] at hkM'
    obtain ⟨tkM, tsM1, heqM0, htkM, _, _⟩ := keys_cons hkM'
    subst heqM0
    have hprec2 : infixPrecOf ty2 = 0 := by
      rcases hmem2 with h | h <;> subst h <;> rfl
    obtain ⟨v, f1, heqE, _⟩ := (ih (n - 1) (by omega)).2.1 e (by omega) hwE f NONE
      (tkE :: tsE1) ((tkM :: tsM1) ++ rest) errs hkE (by simp at hf ⊢; omega)
      (by decide)
      (fun _ => by simp only [List.cons_append, List.headD_cons]
                   rw [htkM, hprec2]; exact Nat.zero_le _)
    have hstop := parseClimb_le f1 NONE v ⟨(tkM :: tsM1) ++ rest, errs⟩
      (by simp only [curTok, List.cons_append, List.headD_cons]
          rw [htkM, hprec2]
          exact Nat.zero_le _)
    have stepE : parseExpression f NONE
        ⟨(tkE :: tsE1) ++ ((tkM :: tsM1) ++ rest), errs⟩ =
        (some v, ⟨(tkM :: tsM1) ++ rest, errs⟩) := by rw [heqE, hstop]
    obtain ⟨vs, hvs⟩ := (ih (n - 1) (by omega)).2.2.2.2.1 r (by omega) hwR [v] f
      (tkM :: tsM1) rest errs hkM (by simp at hf ⊢; omega)
    refine ⟨vs, ?_⟩
    have hne : ty ≠ TokenType.RPAREN := by
      rcases hmem with h|h|h|h|h|h|h|h <;> subst h <;> decide
    simp only [List.cons_append, List.append_assoc] at stepE hvs ⊢
    simp only [parseCallArgs, curTok, List.headD_cons]
    rw [if_neg (by rw [htkE]; exact hne)]
    rw [stepE]
    exact hvs

/-- Continuation arguments: `parseMoreArgs` consumes the continuation
and the closing parenthesis exactly. -/
theorem bigstep_M (n : Nat) (ih : ∀ m, m < n → BigConj m) :
    ∀ a : GArgs, sizeOf a ≤ n → PMProp a := by
  intro a hn hwf acc fuel ts rest errs hk hf
  cases a with
  | anil =>
    simp only [moreArgToks] at hk
    obtain ⟨rp, ts', rfl, hty, hw, hk'⟩ := keys_cons hk
    obtain rfl := keys_nil hk'
    obtain ⟨f, rfl⟩ : ∃ k, fuel = k + 1 := ⟨fuel - 1, by omega⟩
    refine ⟨acc.reverse, ?_⟩
    simp [parseMoreArgs, curTok, advTok, hty]
  | acons e r =>
    simp only [moreArgToks, List.cons_append, List.append_assoc] at hk
    obtain ⟨cm, ts0, rfl, hcmty, hcmw, hk0⟩ := keys_cons hk
    obtain ⟨tsE, tsM, rfl, hkE, hkM⟩ := keys_split hk0
    simp only [wfA, Bool.and_eq_true] at hwf
    obtain ⟨hwE, hwR⟩ := hwf
    simp at hn
    obtain ⟨f, rfl⟩ : ∃ k, fuel = k + 1 := ⟨fuel - 1, by omega⟩
    obtain ⟨ty, w, tl, hsh, hmem, _⟩ := exprToks_shape e
    have hkE' := hkE
    rw [hsh] at hkE'
    obtain ⟨tkE, tsE1, heqE0, htkE, _, _⟩ := keys_cons hkE'
    subst heqE0
    obtain ⟨ty2, w2, tl2, hsh2, hmem2⟩ := moreArgToks_shape r
    have hkM' := hkM
    rw [hsh2] at hkM'
    obtain ⟨tkM, tsM1, heqM0, htkM, _, _⟩ := keys_cons hkM'
    subst heqM0
    have hprec2 : infixPrecOf ty2 = 0 := by
      rcases hmem2 with h | h <;> subst h <;> rfl
    obtain ⟨v, f1, heqE, _⟩ := (ih (n - 1) (by omega)).2.1 e (by omega) hwE f NONE
      (tkE :: tsE1) ((tkM :: tsM1) ++ rest) errs hkE (by simp at hf ⊢; omega)
      (by decide)
      (fun _ => by simp only [List.cons_append, List.headD_cons]
                   rw [htkM, hprec2]; exact Nat.zero_le _)
    have hstop := parseClimb_le f1 NONE v ⟨(tkM :: tsM1) ++ rest, errs⟩
      (by simp only [curTok, List.cons_append, List.headD_cons]
          rw [htkM, hprec2]
          exact Nat.zero_le _)
    have stepE : parseExpression f NONE
        ⟨(tkE :: tsE1) ++ ((tkM :: tsM1) ++ rest), errs⟩ =
        (some v, ⟨(tkM :: tsM1) ++ rest, errs⟩) := by rw [heqE, hstop]
    obtain ⟨vs, hvs⟩ := (ih (n - 1) (by omega)).2.2.2.2.1 r (by omega) hwR (v :: acc)
      f (tkM :: tsM1) rest errs hkM (by simp at hf ⊢; omega)
    refine ⟨vs, ?_⟩
    simp only [List.cons_append, List.append_assoc] at stepE hvs ⊢
    simp only [parseMoreArgs, curTok, List.headD_cons, hcmty]
    simp only [advTok, List.tail_cons]
    rw [stepE]
    exact hvs

/-- Block bodies: `parseBlockStmts` consumes statements up to and
including the closing brace. -/
theorem bigstep_Ss (n : Nat) (ih : ∀ m, m < n → BigConj m) :
    ∀ ss : GStmts, sizeOf ss ≤ n → PSsProp ss := by
  intro ss hn hwf acc fuel ts rest errs hk hf
  cases ss with
  | snil =>
    simp only [stmtsToks, List.nil_append] at hk
    obtain ⟨rb, ts', rfl, hty, hw, hk'⟩ := keys_cons hk
    obtain rfl := keys_nil hk'
    obtain ⟨f, rfl⟩ : ∃ k, fuel = k + 1 := ⟨fuel - 1, by omega⟩
    refine ⟨[], ?_⟩
    simp [parseBlockStmts, curTok, advTok, hty]
  | scons s r =>
    simp only [stmtsToks, List.append_assoc] at hk
    obtain ⟨tsS, tsR, rfl, hkS, hkR⟩ := keys_split hk
    simp only [wfSs, Bool.and_eq_true] at hwf
    obtain ⟨hwS, hwR⟩ := hwf
    simp at hn
    obtain ⟨f, rfl⟩ : ∃ k, fuel = k + 1 := ⟨fuel - 1, by omega⟩
    obtain ⟨ty, w, tl, hsh, h1, h2, h3⟩ := stmtToks_shape s
    have hkS' := hkS
    rw [hsh] at hkS'
    obtain ⟨tkS, tsS1, heqS0, htkS, _, _⟩ := keys_cons hkS'
    subst heqS0
    obtain ⟨ty2, w2, tl2, hsh2, hne2, hne2e⟩ := stmtsRB_shape r
    have hkR' := hkR
    rw [hsh2] at hkR'
    obtain ⟨tkR, tsR1, heqR0, htkR, _, _⟩ := keys_cons hkR'
    subst heqR0
    obtain ⟨v, hv⟩ := (ih (n - 1) (by omega)).2.2.2.2.2.2.1 s (by omega) hwS f
      (tkS :: tsS1) ((tkR :: tsR1) ++ rest) errs hkS (by simp at hf ⊢; omega)
      (by simp only [List.cons_append, List.headD_cons]; rw [htkR]; exact hne2)
    obtain ⟨vs, hvs⟩ := (ih (n - 1) (by omega)).2.2.2.2.2.1 r (by omega) hwR
      (v :: acc) f (tkR :: tsR1) rest errs hkR (by simp at hf ⊢; omega)
    have hvs' : parseBlockStmts f (v :: acc) ⟨(tkR :: tsR1) ++ rest, errs⟩ =
        (acc.reverse ++ (v :: vs), ⟨rest, errs⟩) := by rw [hvs]; simp
    refine ⟨v :: vs, ?_⟩
    simp only [List.cons_append, List.append_assoc] at hv hvs' ⊢
    simp only [parseBlockStmts, curTok, List.headD_cons]
    rw [if_neg (by rw [htkS]; exact h1), if_neg (by rw [htkS]; exact h2)]
    rw [hv]
    exact hvs'

/-- Statements: `parseStatement` consumes one rendered statement
exactly when no `else` follows. -/
theorem bigstep_St (n : Nat) (ih : ∀ m, m < n → BigConj m) :
    ∀ s : GStmt, sizeOf s ≤ n → PStProp s := by
  intro s hn hwf fuel ts rest errs hk hf hne
  cases s with
  | slet x e =>
    simp only [stmtToks, List.cons_append, List.append_assoc] at hk
    obtain ⟨letTk, ts1, rfl, hty1, hw1, hk1⟩ := keys_cons hk
    obtain ⟨idTk, ts2, rfl, hty2, hw2, hk2⟩ := keys_cons hk1
    obtain ⟨asTk, ts3, rfl, hty3, hw3, hk3⟩ := keys_cons hk2
    obtain ⟨tsE, ts4, rfl, hkE, hk4⟩ := keys_split hk3
    obtain ⟨semTk, ts5, rfl, hty5, hw5, hk5⟩ := keys_cons hk4
    obtain rfl := keys_nil hk5
    simp only [wfS, Bool.and_eq_true] at hwf
    simp at hn hf
    obtain ⟨f, rfl⟩ : ∃ k, fuel = k + 1 := ⟨fuel - 1, by omega⟩
    obtain ⟨f1, rfl⟩ : ∃ k, f = k + 1 := ⟨f - 1, by omega⟩
    obtain ⟨v, f2, heqE, _⟩ := (ih (n - 1) (by omega)).2.1 e (by omega) hwf.2 f1 NONE
      tsE (semTk :: rest) errs hkE (by omega) (by decide)
      (fun _ => by simp only [List.headD_cons]; rw [hty5]; decide)
    have hstop := parseClimb_le f2 NONE v ⟨semTk :: rest, errs⟩
      (by simp only [curTok, List.headD_cons]; rw [hty5]; decide)
    have stepE : parseExpression f1 NONE ⟨tsE ++ (semTk :: rest), errs⟩ =
        (some v, ⟨semTk :: rest, errs⟩) := by rw [heqE, hstop]
    refine ⟨Stmt.letStatement letTk ⟨idTk, idTk.word⟩ (some v), ?_⟩
    simp only [List.cons_append, List.append_assoc, List.nil_append] at stepE ⊢
    simp only [parseStatement, curTok, List.headD_cons, hty1]
    simp only [parseLet, curTok, advTok, List.tail_cons, List.headD_cons, hty2, hty3]
    simp [stepE, curTok, advTok, hty5]
  | sletNoInit x =>
    simp only [stmtToks] at hk
    obtain ⟨letTk, ts1, rfl, hty1, hw1, hk1⟩ := keys_cons hk
    obtain ⟨idTk, ts2, rfl, hty2, hw2, hk2⟩ := keys_cons hk1
    obtain ⟨semTk, ts3, rfl, hty3, hw3, hk3⟩ := keys_cons hk2
    obtain rfl := keys_nil hk3
    simp at hf
    obtain ⟨f, rfl⟩ : ∃ k, fuel = k + 1 := ⟨fuel - 1, by omega⟩
    obtain ⟨f1, rfl⟩ : ∃ k, f = k + 1 := ⟨f - 1, by omega⟩
    refine ⟨Stmt.letStatement letTk ⟨idTk, idTk.word⟩ none, ?_⟩
    simp [parseStatement, parseLet, curTok, advTok, hty1, hty2, hty3]
  | sret e =>
    simp only [stmtToks, List.cons_append, List.append_assoc] at hk
    obtain ⟨retTk, ts1, rfl, hty1, hw1, hk1⟩ := keys_cons hk
    obtain ⟨tsE, ts2, rfl, hkE, hk2⟩ := keys_split hk1
    obtain ⟨semTk, ts3, rfl, hty3, hw3, hk3⟩ := keys_cons hk2
    obtain rfl := keys_nil hk3
    simp only [wfS] at hwf
    simp at hn hf
    obtain ⟨f, rfl⟩ : ∃ k, fuel = k + 1 := ⟨fuel - 1, by omega⟩
    obtain ⟨f1, rfl⟩ : ∃ k, f = k + 1 := ⟨f - 1, by omega⟩
    obtain ⟨ty, w, tl, hsh, hmem, _⟩ := exprToks_shape e
    have hkE' := hkE
    rw [hsh] at hkE'
    obtain ⟨tkE, tsE1, heqE0, htkE, _, _⟩ := keys_cons hkE'
    subst heqE0
    have hnsem : ¬(ty = TokenType.SEMCOL) := by
      rcases hmem with h|h|h|h|h|h|h|h <;> subst h <;> decide
    obtain ⟨v, f2, heqE, _⟩ := (ih (n - 1) (by omega)).2.1 e (by omega) hwf f1 NONE
      (tkE :: tsE1) (semTk :: rest) errs hkE (by simp at hf ⊢; omega) (by decide)
      (fun _ => by simp only [List.headD_cons]; rw [hty3]; decide)
    have hstop := parseClimb_le f2 NONE v ⟨semTk :: rest, errs⟩
      (by simp only [curTok, List.headD_cons]; rw [hty3]; decide)
    have stepE : parseExpression f1 NONE ⟨(tkE :: tsE1) ++ (semTk :: rest), errs⟩ =
        (some v, ⟨semTk :: rest, errs⟩) := by rw [heqE, hstop]
    have hnsem2 : ¬(tkE.type = TokenType.SEMCOL) := by rw [htkE]; exact hnsem
    refine ⟨Stmt.returnStatement retTk (some v), ?_⟩
    simp only [List.cons_append, List.append_assoc, List.nil_append] at stepE ⊢
    simp only [parseStatement, curTok, List.headD_cons, hty1]
    simp only [parseReturn, advTok, List.tail_cons, curTok, List.headD_cons]
    simp [hnsem2, stepE, curTok, advTok, hty3]
  | sretVoid =>
    simp only [stmtToks] at hk
    obtain ⟨retTk, ts1, rfl, hty1, hw1, hk1⟩ := keys_cons hk
    obtain ⟨semTk, ts2, rfl, hty2, hw2, hk2⟩ := keys_cons hk1
    obtain rfl := keys_nil hk2
    simp at hf
    obtain ⟨f, rfl⟩ : ∃ k, fuel = k + 1 := ⟨fuel - 1, by omega⟩
    obtain ⟨f1, rfl⟩ : ∃ k, f = k + 1 := ⟨f - 1, by omega⟩
    refine ⟨Stmt.returnStatement retTk none, ?_⟩
    simp [parseStatement, parseReturn, curTok, advTok, hty1, hty2]
  | sexpr e =>
    simp only [stmtToks, List.cons_append, List.append_assoc] at hk
    obtain ⟨tsE, ts2, rfl, hkE, hk2⟩ := keys_split hk
    obtain ⟨semTk, ts3, rfl, hty3, hw3, hk3⟩ := keys_cons hk2
    obtain rfl := keys_nil hk3
    simp only [wfS, Bool.and_eq_true] at hwf
    obtain ⟨hnf, hwE⟩ := hwf
    simp at hn hf
    obtain ⟨ty, w, tl, hsh, hmem, hfnV⟩ := exprToks_shape e
    have hkE' := hkE
    rw [hsh] at hkE'
    obtain ⟨tkE, tsE1, heqE0, htkE, _, _⟩ := keys_cons hkE'
    subst heqE0
    obtain ⟨f, rfl⟩ : ∃ k, fuel = k + 1 := ⟨fuel - 1, by omega⟩
    obtain ⟨f1, rfl⟩ : ∃ k, f = k + 1 := ⟨f - 1, by omega⟩
    have htyFn := hfnV hnf
    have hL : ty ≠ TokenType.LET := by
      rcases hmem with h|h|h|h|h|h|h|h <;> subst h <;> decide
    have hR : ty ≠ TokenType.RET := by
      rcases hmem with h|h|h|h|h|h|h|h <;> subst h <;> decide
    have hI : ty ≠ TokenType.IF := by
      rcases hmem with h|h|h|h|h|h|h|h <;> subst h <;> decide
    have hEOF : ty ≠ TokenType.EOF := by
      rcases hmem with h|h|h|h|h|h|h|h <;> subst h <;> decide
    have hh1 : tkE.type ≠ TokenType.LET := by rw [htkE]; exact hL
    have hh2 : tkE.type ≠ TokenType.FN := by rw [htkE]; exact htyFn
    have hh3 : tkE.type ≠ TokenType.RET := by rw [htkE]; exact hR
    have hh4 : tkE.type ≠ TokenType.IF := by rw [htkE]; exact hI
    have hh5 : tkE.type ≠ TokenType.EOF := by rw [htkE]; exact hEOF
    obtain ⟨v, f2, heqE, _⟩ := (ih (n - 1) (by omega)).2.1 e (by omega) hwE f1 NONE
      (tkE :: tsE1) (semTk :: rest) errs hkE (by simp at hf ⊢; omega) (by decide)
      (fun _ => by simp only [List.headD_cons]; rw [hty3]; decide)
    have hstop := parseClimb_le f2 NONE v ⟨semTk :: rest, errs⟩
      (by simp only [curTok, List.headD_cons]; rw [hty3]; decide)
    have stepE : parseExpression f1 NONE ⟨(tkE :: tsE1) ++ (semTk :: rest), errs⟩ =
        (some v, ⟨semTk :: rest, errs⟩) := by rw [heqE, hstop]
    refine ⟨Stmt.expressionStatement tkE (some v), ?_⟩
    simp only [List.cons_append, List.append_assoc, List.nil_append,
      List.singleton_append] at stepE ⊢
    rw [parseStatement_other (f1 + 1) ⟨tkE :: (tsE1 ++ semTk :: rest), errs⟩
      hh1 hh2 hh3 hh4 hh5]
    simp [parseExprStatement, stepE, curTok, advTok, hty3]
  | sif c t els =>
    simp only [stmtToks, List.cons_append, List.append_assoc] at hk
    simp only [wfS, Bool.and_eq_true] at hwf
    obtain ⟨⟨hwc, hwt⟩, hwel⟩ := hwf
    simp at hn
    obtain ⟨f, rfl⟩ : ∃ k, fuel = k + 1 := ⟨fuel - 1, by omega⟩
    obtain ⟨v, hv⟩ := (ih (n - 1) (by omega)).2.2.2.2.2.2.2.1 c t els (by omega)
      hwc hwt hwel f ts rest errs hk (by omega) hne
    refine ⟨v, ?_⟩
    have hcur : (curTok (⟨ts ++ rest, errs⟩ : PState)).type = TokenType.IF :=
      headD_of_keys hk
    simp only [parseStatement]
    rw [hcur]
    exact hv
  | sfn fname ps b =>
    simp only [stmtToks, List.cons_append, List.append_assoc] at hk
    obtain ⟨fnTk, ts1, rfl, hty1, hw1, hk1⟩ := keys_cons hk
    obtain ⟨nameTk, ts2, rfl, hty2, hw2, hk2⟩ := keys_cons hk1
    simp only [wfS, Bool.and_eq_true] at hwf
    obtain ⟨⟨hwx, hwp⟩, hwb⟩ := hwf
    simp at hn hf
    obtain ⟨f, rfl⟩ : ∃ k, fuel = k + 1 := ⟨fuel - 1, by omega⟩
    obtain ⟨f1, rfl⟩ : ∃ k, f = k + 1 := ⟨f - 1, by omega⟩
    obtain ⟨lit, hlit⟩ := (ih (n - 1) (by omega)).2.2.2.2.2.2.2.2 ps b (by omega)
      hwp hwb f1 ts2 rest errs fnTk hk2 (by omega)
    refine ⟨Stmt.functionStatement fnTk ⟨nameTk, nameTk.word⟩ lit, ?_⟩
    simp only [List.cons_append, List.append_assoc, List.nil_append]
    simp only [parseStatement, curTok, List.headD_cons, hty1]
    simp only [parseFnStatement, curTok, advTok, List.tail_cons, List.headD_cons, hty2]
    simp [hlit]

/-- If statements: `parseIf` consumes the whole if/else-if chain when
no further `else` follows. -/
theorem bigstep_If (n : Nat) (ih : ∀ m, m < n → BigConj m) :
    ∀ (c : GExpr) (t : GStmts) (els : GElse),
      sizeOf c + sizeOf t + sizeOf els ≤ n → PIfProp c t els := by
  intro c t els hn hwc hwt hwel fuel ts rest errs hk hf hne
  obtain ⟨ifTk, ts1, rfl, htyIf, hwIf, hk1⟩ := keys_cons hk
  obtain ⟨tsC, ts2, rfl, hkC, hk2⟩ := keys_split hk1
  obtain ⟨lbTk, ts3, rfl, htyLb, hwLb, hk3⟩ := keys_cons hk2
  have hk3' : ts3.map tokKey =
      (stmtsToks t ++ [(TokenType.RBRACE, "\x7d")]) ++ elseToks els := by
    rw [hk3]; simp
  obtain ⟨tsT, tsEls, heqT, hkT, hkEls⟩ := keys_split hk3'
  subst heqT
  have h1t := one_le_sizeOf_stmts t
  have h1e := one_le_sizeOf_else els
  simp at hn hf
  obtain ⟨f, rfl⟩ : ∃ k, fuel = k + 1 := ⟨fuel - 1, by omega⟩
  obtain ⟨f3, rfl⟩ : ∃ k, f = k + 1 := ⟨f - 1, by omega⟩
  obtain ⟨v, f2, heqC, _⟩ := (ih (n - 1) (by omega)).2.1 c (by omega) hwc (f3 + 1)
    NONE tsC (lbTk :: (tsT ++ (tsEls ++ rest))) errs hkC (by omega) (by decide)
    (fun _ => by simp only [List.headD_cons]; rw [htyLb]; decide)
  have hstopC := parseClimb_le f2 NONE v ⟨lbTk :: (tsT ++ (tsEls ++ rest)), errs⟩
    (by simp only [curTok, List.headD_cons]; rw [htyLb]; decide)
  have stepC : parseExpression (f3 + 1) NONE
      ⟨tsC ++ (lbTk :: (tsT ++ (tsEls ++ rest))), errs⟩ =
      (some v, ⟨lbTk :: (tsT ++ (tsEls ++ rest)), errs⟩) := by rw [heqC, hstopC]
  obtain ⟨vs, hvs⟩ := (ih (n - 1) (by omega)).2.2.2.2.2.1 t (by omega) hwt [] f3 tsT
    (tsEls ++ rest) errs hkT (by simp at hf ⊢; omega)
  have stepB : parseBlock (f3 + 1) ⟨lbTk :: (tsT ++ (tsEls ++ rest)), errs⟩ =
      (BlockStatement.mk lbTk vs, ⟨tsEls ++ rest, errs⟩) := by
    simp only [parseBlock, curTok, List.headD_cons, advTok, List.tail_cons]
    rw [hvs]
    simp
  cases els with
  | enone =>
    simp only [elseToks] at hkEls
    obtain rfl := keys_nil hkEls
    refine ⟨Stmt.ifStatement ifTk (some v) (BlockStatement.mk lbTk vs) none, ?_⟩
    simp only [List.nil_append] at stepC stepB
    simp only [List.cons_append, List.append_assoc, List.nil_append]
    simp only [parseIf, curTok, List.headD_cons, advTok, List.tail_cons]
    rw [stepC]
    have hne2 : ¬((rest.head?.getD eofToken).type = TokenType.ELSE) := by
      simpa using hne
    simp [curTok, advTok, htyLb, stepB, hne2]
  | eelse b =>
    simp only [elseToks, List.cons_append, List.append_assoc] at hkEls
    obtain ⟨elTk, tsE1, heqE0, htyEl, hwEl2, hkE1⟩ := keys_cons hkEls
    subst heqE0
    obtain ⟨lb2, tsE2, heqE1, htyLb2, hwLb2, hkE2⟩ := keys_cons hkE1
    subst heqE1
    simp only [wfEl] at hwel
    simp at hn hf
    obtain ⟨vs2, hvs2⟩ := (ih (n - 1) (by omega)).2.2.2.2.2.1 b (by omega) hwel []
      f3 tsE2 rest errs hkE2 (by omega)
    have stepB2 : parseBlock (f3 + 1) ⟨lb2 :: (tsE2 ++ rest), errs⟩ =
        (BlockStatement.mk lb2 vs2, ⟨rest, errs⟩) := by
      simp only [parseBlock, curTok, List.headD_cons, advTok, List.tail_cons]
      rw [hvs2]
      simp
    refine ⟨Stmt.ifStatement ifTk (some v) (BlockStatement.mk lbTk vs)
      (some (Stmt.blockStatement (BlockStatement.mk lb2 vs2))), ?_⟩
    simp only [List.cons_append, List.append_assoc] at stepC stepB ⊢
    simp only [parseIf, curTok, List.headD_cons, advTok, List.tail_cons]
    rw [stepC]
    simp [curTok, advTok, htyLb, stepB, htyEl, htyLb2, stepB2]
  | eelif c2 t2 els2 =>
    simp only [elseToks, List.cons_append, List.append_assoc] at hkEls
    obtain ⟨elTk, tsE1, heqE0, htyEl, hwEl2, hkE1⟩ := keys_cons hkEls
    subst heqE0
    simp only [wfEl, Bool.and_eq_true] at hwel
    obtain ⟨⟨hwc2, hwt2⟩, hwel2⟩ := hwel
    simp at hn hf
    have hIfHead : ((tsE1 ++ rest).headD eofToken).type = TokenType.IF :=
      headD_of_keys hkE1
    obtain ⟨v2, hv2⟩ := (ih (n - 1) (by omega)).2.2.2.2.2.2.2.1 c2 t2 els2 (by omega)
      hwc2 hwt2 hwel2 (f3 + 1) tsE1 rest errs hkE1 (by omega) hne
    refine ⟨Stmt.ifStatement ifTk (some v) (BlockStatement.mk lbTk vs) (some v2), ?_⟩
    simp only [List.cons_append, List.append_assoc] at stepC stepB ⊢
    rw [parseIf]
    simp only [curTok, List.headD_cons, advTok, List.tail_cons]
    rw [stepC]
    have hIf2 : ((tsE1.head?.or rest.head?).getD eofToken).type = TokenType.IF := by
      simpa using hIfHead
    simp [curTok, advTok, htyLb, stepB, htyEl, hIf2, hv2]

/-- Function tails: `parseFnTail` consumes the parameter list and the
body block, building a function literal. -/
theorem bigstep_Fn (n : Nat) (ih : ∀ m, m < n → BigConj m) :
    ∀ (ps : GParams) (b : GStmts), sizeOf ps + sizeOf b ≤ n → PFnProp ps b := by
  intro ps b hn hwp hwb fuel ts rest errs fnTok hk hf
  obtain ⟨lpTk, ts1, rfl, htyLp, hwLp, hk1⟩ := keys_cons hk
  obtain ⟨tsP, ts2, rfl, hkP, hk2⟩ := keys_split hk1
  obtain ⟨lbTk, ts3, rfl, htyLb, hwLb, hk3⟩ := keys_cons hk2
  have h1p := one_le_sizeOf_params ps
  simp at hf
  obtain ⟨f, rfl⟩ : ∃ k, fuel = k + 1 := ⟨fuel - 1, by omega⟩
  obtain ⟨f2, rfl⟩ : ∃ k, f = k + 1 := ⟨f - 1, by omega⟩
  obtain ⟨prms, hprms⟩ := parseParams_complete ps (f2 + 1) tsP
    (lbTk :: (ts3 ++ rest)) errs hkP (by omega)
  obtain ⟨vs, hvs⟩ := (ih (n - 1) (by omega)).2.2.2.2.2.1 b (by omega) hwb [] f2 ts3
    rest errs hk3 (by omega)
  have stepB : parseBlock (f2 + 1) ⟨lbTk :: (ts3 ++ rest), errs⟩ =
      (BlockStatement.mk lbTk vs, ⟨rest, errs⟩) := by
    simp only [parseBlock, curTok, List.headD_cons, advTok, List.tail_cons]
    rw [hvs]
    simp
  refine ⟨FunctionLiteral.mk fnTok prms (BlockStatement.mk lbTk vs), ?_⟩
  simp only [List.cons_append, List.append_assoc, List.nil_append]
  simp only [parseFnTail, curTok, List.headD_cons, advTok, List.tail_cons, htyLp]
  rw [hprms]
  simp [curTok, htyLb, stepB]

/-- All completeness statements hold at every size: strong induction
ties the components together. -/
theorem grammar_complete : ∀ n, BigConj n := by
  intro n
  induction n using Nat.strongRecOn with
  | ind n ih =>
    exact ⟨bigstep_H n ih, bigstep_Ex n ih, bigstep_C n ih, bigstep_A n ih,
      bigstep_M n ih, bigstep_Ss n ih, bigstep_St n ih, bigstep_If n ih,
      bigstep_Fn n ih⟩

/-! ## Lexability of the rendered grammar -/

/-- Every token key a well-formed grammar value emits passes `wordOK`:
one strong induction on size over all grammar sorts. -/
theorem wgrammar : ∀ n, WConj n := by
  intro n
  induction n using Nat.strongRecOn with
  | ind n ih =>
    refine ⟨?_, ?_, ?_, ?_, ?_, ?_, ?_, ?_, ?_, ?_⟩
    · intro h hn hwf k hk
      cases h with
      | hvar s =>
        simp only [headToks, List.mem_singleton] at hk
        subst hk
        simp only [wfH] at hwf
        simpa [wordOK] using hwf
      | hint s =>
        simp only [headToks, List.mem_singleton] at hk
        subst hk
        simp only [wfH, validIntWord, Bool.and_eq_true] at hwf
        simp only [wordOK, Bool.and_eq_true]
        exact ⟨hwf.1.1, hwf.1.2⟩
      | hbool b =>
        cases b <;> simp only [headToks, List.mem_singleton] at hk <;>
          subst hk <;> decide
      | hneg e =>
        simp only [headToks, List.mem_cons] at hk
        simp only [wfH] at hwf
        simp at hn
        rcases hk with rfl | hk
        · decide
        · exact (ih (n - 1) (by omega)).2.1 e (by omega) hwf k hk
      | hnot e =>
        simp only [headToks, List.mem_cons] at hk
        simp only [wfH] at hwf
        simp at hn
        rcases hk with rfl | hk
        · decide
        · exact (ih (n - 1) (by omega)).2.1 e (by omega) hwf k hk
      | hbin op l r =>
        simp only [headToks, List.cons_append, List.mem_cons, List.mem_append,
          List.mem_singleton, List.not_mem_nil, or_false, or_assoc] at hk
        simp only [wfH, Bool.and_eq_true] at hwf
        obtain ⟨⟨hop, hwl⟩, hwr⟩ := hwf
        simp at hn
        rcases hk with rfl | hk | rfl | hk | rfl
        · decide
        · exact (ih (n - 1) (by omega)).2.1 l (by omega) hwl k hk
        · cases op <;> simp [binOpWord] at hop <;> decide
        · exact (ih (n - 1) (by omega)).2.1 r (by omega) hwr k hk
        · decide
      | hfn ps b =>
        simp only [headToks, List.cons_append, List.mem_cons, List.mem_append,
          List.mem_singleton, List.not_mem_nil, or_false, or_assoc] at hk
        simp only [wfH, Bool.and_eq_true] at hwf
        simp at hn
        rcases hk with rfl | rfl | hk | rfl | hk | rfl
        · decide
        · decide
        · exact (ih (n - 1) (by omega)).2.2.2.2.2.1 ps (by omega) hwf.1 k hk
        · decide
        · exact (ih (n - 1) (by omega)).2.2.2.2.2.2.2.1 b (by omega) hwf.2 k hk
        · decide
    · intro e hn hwf k hk
      rcases e with ⟨h, c⟩
      simp only [exprToks, List.mem_append] at hk
      simp only [wfE, Bool.and_eq_true] at hwf
      simp at hn
      rcases hk with hk | hk
      · exact (ih (n - 1) (by omega)).1 h (by omega) hwf.1.1 k hk
      · exact (ih (n - 1) (by omega)).2.2.1 c (by omega) hwf.2 k hk
    · intro c hn hwf k hk
      cases c with
      | cnone => simp [callToks] at hk
      | csome a =>
        simp only [callToks, List.mem_cons] at hk
        simp only [wfC] at hwf
        simp at hn
        rcases hk with rfl | hk
        · decide
        · exact (ih (n - 1) (by omega)).2.2.2.1 a (by omega) hwf k hk
    · intro a hn hwf k hk
      cases a with
      | anil =>
        simp only [argToks, List.mem_singleton] at hk
        subst hk
        decide
      | acons e r =>
        simp only [argToks, List.mem_append] at hk
        simp only [wfA, Bool.and_eq_true] at hwf
        simp at hn
        rcases hk with hk | hk
        · exact (ih (n - 1) (by omega)).2.1 e (by omega) hwf.1 k hk
        · exact (ih (n - 1) (by omega)).2.2.2.2.1 r (by omega) hwf.2 k hk
    · intro a hn hwf k hk
      cases a with
      | anil =>
        simp only [moreArgToks, List.mem_singleton] at hk
        subst hk
        decide
      | acons e r =>
        simp only [moreArgToks, List.cons_append, List.mem_cons,
          List.mem_append] at hk
        simp only [wfA, Bool.and_eq_true] at hwf
        simp at hn
        rcases hk with rfl | hk | hk
        · decide
        · exact (ih (n - 1) (by omega)).2.1 e (by omega) hwf.1 k hk
        · exact (ih (n - 1) (by omega)).2.2.2.2.1 r (by omega) hwf.2 k hk
    · intro p hn hwf k hk
      cases p with
      | pnil =>
        simp only [paramToks, List.mem_singleton] at hk
        subst hk
        decide
      | pcons x r =>
        simp only [paramToks, List.mem_cons] at hk
        simp only [wfP, Bool.and_eq_true] at hwf
        simp at hn
        rcases hk with rfl | hk
        · simpa [wordOK] using hwf.1
        · exact (ih (n - 1) (by omega)).2.2.2.2.2.2.1 r (by omega) hwf.2 k hk
    · intro p hn hwf k hk
      cases p with
      | pnil =>
        simp only [moreParamToks, List.mem_singleton] at hk
        subst hk
        decide
      | pcons x r =>
        simp only [moreParamToks, List.mem_cons] at hk
        simp only [wfP, Bool.and_eq_true] at hwf
        simp at hn
        rcases hk with rfl | rfl | hk
        · decide
        · simpa [wordOK] using hwf.1
        · exact (ih (n - 1) (by omega)).2.2.2.2.2.2.1 r (by omega) hwf.2 k hk
    · intro ss hn hwf k hk
      cases ss with
      | snil => simp [stmtsToks] at hk
      | scons s r =>
        simp only [stmtsToks, List.mem_append] at hk
        simp only [wfSs, Bool.and_eq_true] at hwf
        simp at hn
        rcases hk with hk | hk
        · exact (ih (n - 1) (by omega)).2.2.2.2.2.2.2.2.1 s (by omega) hwf.1 k hk
        · exact (ih (n - 1) (by omega)).2.2.2.2.2.2.2.1 r (by omega) hwf.2 k hk
    · intro s hn hwf k hk
      cases s with
      | slet x e =>
        simp only [stmtToks, List.cons_append, List.mem_cons, List.mem_append,
          List.mem_singleton, List.not_mem_nil, or_false, or_assoc] at hk
        simp only [wfS, Bool.and_eq_true] at hwf
        simp at hn
        rcases hk with rfl | rfl | rfl | hk | rfl
        · decide
        · simpa [wordOK] using hwf.1
        · decide
        · exact (ih (n - 1) (by omega)).2.1 e (by omega) hwf.2 k hk
        · decide
      | sletNoInit x =>
        simp only [stmtToks, List.mem_cons, List.mem_singleton,
          List.not_mem_nil, or_false, or_assoc] at hk
        simp only [wfS] at hwf
        rcases hk with rfl | rfl | rfl
        · decide
        · simpa [wordOK] using hwf
        · decide
      | sret e =>
        simp only [stmtToks, List.cons_append, List.mem_cons, List.mem_append,
          List.mem_singleton, List.not_mem_nil, or_false, or_assoc] at hk
        simp only [wfS] at hwf
        simp at hn
        rcases hk with rfl | hk | rfl
        · decide
        · exact (ih (n - 1) (by omega)).2.1 e (by omega) hwf k hk
        · decide
      | sretVoid =>
        simp only [stmtToks, List.mem_cons, List.mem_singleton,
          List.not_mem_nil, or_false, or_assoc] at hk
        rcases hk with rfl | rfl
        · decide
        · decide
      | sexpr e =>
        simp only [stmtToks, List.mem_append, List.mem_cons, List.mem_singleton,
          List.not_mem_nil, or_false, or_assoc] at hk
        simp only [wfS, Bool.and_eq_true] at hwf
        simp at hn
        rcases hk with hk | rfl
        · exact (ih (n - 1) (by omega)).2.1 e (by omega) hwf.2 k hk
        · decide
      | sif c t els =>
        simp only [stmtToks, List.cons_append, List.mem_cons, List.mem_append,
          List.not_mem_nil, or_false, or_assoc] at hk
        simp only [wfS, Bool.and_eq_true] at hwf
        obtain ⟨⟨hwc, hwt⟩, hwel⟩ := hwf
        simp at hn
        rcases hk with rfl | hk | rfl | hk | rfl | hk
        · decide
        · exact (ih (n - 1) (by omega)).2.1 c (by omega) hwc k hk
        · decide
        · exact (ih (n - 1) (by omega)).2.2.2.2.2.2.2.1 t (by omega) hwt k hk
        · decide
        · exact (ih (n - 1) (by omega)).2.2.2.2.2.2.2.2.2 els (by omega) hwel k hk
      | sfn fname ps b =>
        simp only [stmtToks, List.cons_append, List.mem_cons, List.mem_append,
          List.mem_singleton, List.not_mem_nil, or_false, or_assoc] at hk
        simp only [wfS, Bool.and_eq_true] at hwf
        obtain ⟨⟨hwx, hwp⟩, hwb⟩ := hwf
        simp at hn
        rcases hk with rfl | rfl | rfl | hk | rfl | hk | rfl
        · decide
        · simpa [wordOK] using hwx
        · decide
        · exact (ih (n - 1) (by omega)).2.2.2.2.2.1 ps (by omega) hwp k hk
        · decide
        · exact (ih (n - 1) (by omega)).2.2.2.2.2.2.2.1 b (by omega) hwb k hk
        · decide
    · intro els hn hwf k hk
      cases els with
      | enone => simp [elseToks] at hk
      | eelse b =>
        simp only [elseToks, List.cons_append, List.mem_cons, List.mem_append,
          List.mem_singleton, List.not_mem_nil, or_false, or_assoc] at hk
        simp only [wfEl] at hwf
        simp at hn
        rcases hk with rfl | rfl | hk | rfl
        · decide
        · decide
        · exact (ih (n - 1) (by omega)).2.2.2.2.2.2.2.1 b (by omega) hwf k hk
        · decide
      | eelif c t els2 =>
        simp only [elseToks, List.cons_append, List.mem_cons, List.mem_append,
          List.not_mem_nil, or_false, or_assoc] at hk
        simp only [wfEl, Bool.and_eq_true] at hwf
        obtain ⟨⟨hwc, hwt⟩, hwel⟩ := hwf
        simp at hn
        rcases hk with rfl | rfl | hk | rfl | hk | rfl | hk
        · decide
        · decide
        · exact (ih (n - 1) (by omega)).2.1 c (by omega) hwc k hk
        · decide
        · exact (ih (n - 1) (by omega)).2.2.2.2.2.2.2.1 t (by omega) hwt k hk
        · decide
        · exact (ih (n - 1) (by omega)).2.2.2.2.2.2.2.2.2 els2 (by omega) hwel k hk

/-- Every token of a rendered well-formed statement scans back as a
single token of its class. -/
theorem stmtToks_wordOK (s : GStmt) (hwf : wfS s = true) :
    ∀ k ∈ stmtToks s, wordOK k.1 k.2 = true :=
  (wgrammar (sizeOf s)).2.2.2.2.2.2.2.2.1 s (le_refl _) hwf

/-- Statement-level parser completeness, extracted from the grammar
induction. -/
theorem PSt_of_grammar (s : GStmt) : PStProp s :=
  (grammar_complete (sizeOf s)).2.2.2.2.2.2.1 s (le_refl _)

/-! ## Theorems for the claims -/

/-- A well-formed grammar statement, rendered to source text, parses to
exactly one statement with an empty diagnostics list. -/
theorem single_stmt_parse (s : GStmt) (name : String) (hwf : wfS s = true) :
    ∃ v, Parse name (renderToks (stmtToks s)) = (⟨[v]⟩, []) := by
  obtain ⟨toks, hlex, hmap⟩ := lex_render (stmtToks s) name (stmtToks_wordOK s hwf)
  obtain ⟨ts1, ts2, rfl, hk1, hk2⟩ := keys_split hmap
  obtain ⟨eofTk, ts3, rfl, htyE, hwE, hk3⟩ := keys_cons hk2
  obtain rfl := keys_nil hk3
  obtain ⟨ty, w, tl, hsh, h1, h2, h3⟩ := stmtToks_shape s
  have hk1' := hk1
  rw [hsh] at hk1'
  obtain ⟨tk1, ts1', heq1, htk1, _, _⟩ := keys_cons hk1'
  subst heq1
  obtain ⟨v, hv⟩ := PSt_of_grammar s hwf (8 * ts1'.length + 31) (tk1 :: ts1')
    [eofTk] [] hk1 (by simp; omega)
    (by simp only [List.headD_cons]; rw [htyE]; decide)
  simp only [List.cons_append] at hv
  have hstep2 : parseProgram (8 * ts1'.length + 31) ⟨[eofTk], []⟩ =
      ([], ⟨[eofTk], []⟩) := by
    rw [show (8 * ts1'.length + 31 : Nat) = (8 * ts1'.length + 30) + 1 from rfl]
    rw [parseProgram]
    simp [curTok, htyE]
  have hrun : parseProgram (parseFuel ((tk1 :: ts1') ++ [eofTk]))
      ⟨(tk1 :: ts1') ++ [eofTk], []⟩ = ([v], ⟨[eofTk], []⟩) := by
    have hF : parseFuel ((tk1 :: ts1') ++ [eofTk]) = (8 * ts1'.length + 31) + 1 := by
      simp [parseFuel]
      omega
    rw [hF]
    rw [parseProgram]
    simp only [curTok, List.cons_append, List.headD_cons, htk1]
    rw [if_neg h2]
    rw [hv]
    simp [hstep2]
  refine ⟨v, ?_⟩
  simp only [Parse]
  rw [hlex, hrun]

/-- C6: for every syntactically valid single-statement input — every
sentence of the statement grammar, rendered to text — `Parse` returns a
program holding exactly one statement, and the diagnostics list is
empty. -/
theorem c6_valid_single_statement_parses (s : GStmt) (name : String)
    (hwf : wfS s = true) :
    (Parse name (renderToks (stmtToks s))).1.statements.length = 1 ∧
    (Parse name (renderToks (stmtToks s))).2 = [] := by
  obtain ⟨v, hv⟩ := single_stmt_parse s name hwf
  rw [hv]
  exact ⟨rfl, rfl⟩

/-- Witness for C6 at the concrete statement `foobar ;`. -/
theorem c6_valid_single_statement_parses_witness :
    wfS (GStmt.sexpr (GExpr.ge (GHead.hvar "foobar") GCall.cnone)) = true ∧
    ((Parse "t" (renderToks (stmtToks
        (GStmt.sexpr (GExpr.ge (GHead.hvar "foobar")
          GCall.cnone))))).1.statements.length = 1 ∧
      (Parse "t" (renderToks (stmtToks
        (GStmt.sexpr (GExpr.ge (GHead.hvar "foobar") GCall.cnone))))).2 = []) :=
  ⟨by decide, c6_valid_single_statement_parses
    (GStmt.sexpr (GExpr.ge (GHead.hvar "foobar") GCall.cnone)) "t" (by decide)⟩


/-- Claim C1: the claim says `IfStatement.String()` includes the
condition, so two if statements that differ only in their condition
render to different strings.  Evaluating `IfStatement.String` as
written in `ast.go` at the failing input shows otherwise: two if
statements whose conditions render as `x` and `y` both produce the
string `"if { }"`. -/
theorem c1_ifString_drops_condition :
    conditionString ifWithCondX = some "x" ∧
    conditionString ifWithCondY = some "y" ∧
    stmtString ifWithCondX = "if {  }" ∧
    stmtString ifWithCondY = "if {  }" ∧
    stmtString ifWithCondX = stmtString ifWithCondY := by
  refine ⟨by decide, by decide, by decide, by decide, by decide⟩

/-- Claim C2, counterexample: an `IfStatement` whose else field is a
let statement is representable in the AST (the Go field type is the
`Statement` interface), so the claim's "representable in the AST" arm
fails. -/
theorem c2_counterexample_let_in_else :
    ifElseFieldOK ifWithLetElse = false :=
  rfl

/-- Claim C2 (amended): every `IfStatement` node the parser produces —
anywhere in the returned program, blocks and function bodies included —
has an else field that is absent, another `IfStatement`, or a
`BlockStatement`.  (The AST field type itself admits any statement
there; see the counterexample.) -/
theorem c2_parsed_else_nil_if_or_block :
    ∀ name input : String,
      stmtsElseOK (Parse name input).1.statements = true := by
  intro name input
  simp only [Parse]
  rcases hp : parseProgram (parseFuel (lex name input)) ⟨lex name input, []⟩
    with ⟨ss, st⟩
  have h := parseProgram_preserves_else_invariant
    (parseFuel (lex name input)) ⟨lex name input, []⟩
  rw [hp] at h
  simpa using h

/-- One unfolding of the top loop off EOF: the final state comes from
the recursive call on the statement's residue. -/
theorem parseProgram_step (f : Nat) (st : PState)
    (h : (curTok st).type ≠ TokenType.EOF) :
    (parseProgram (f + 1) st).2 = (parseProgram f (parseStatement f st).2).2 := by
  simp only [parseProgram, if_neg h]

/-- In expression position (no statement keyword, no prefix rule, not
EOF) the dispatch lands on the expression-statement branch. -/
theorem parseStatement_defaults (f : Nat) (st : PState)
    (h1 : hasPrefixRule (curTok st).type = false)
    (h2 : (curTok st).type ≠ TokenType.LET)
    (h3 : (curTok st).type ≠ TokenType.RET)
    (h4 : (curTok st).type ≠ TokenType.IF)
    (h5 : (curTok st).type ≠ TokenType.EOF) :
    parseStatement (f + 1) st = parseExprStatement f st := by
  cases ht : (curTok st).type
  <;> first
    | exact absurd ht h2
    | exact absurd ht h3
    | exact absurd ht h4
    | exact absurd ht h5
    | (rw [ht] at h1; exact absurd h1 (by decide))
    | simp [parseStatement, ht]

/-- A token without a prefix rule makes `parsePrefixPos` record the
"no prefix parse rule" diagnostic and yield no expression. -/
theorem parsePrefixPos_noRule (f : Nat) (st : PState)
    (h1 : hasPrefixRule (curTok st).type = false) :
    parsePrefixPos (f + 1) st =
      (none, addErr st (curTok st)
        ("no prefix parse rule for " ++ (curTok st).word)) := by
  cases ht : (curTok st).type
  <;> first
    | (rw [ht] at h1; exact absurd h1 (by decide))
    | simp [parsePrefixPos, ht]

/-- The same failure propagated through `parseExpression`. -/
theorem parseExpression_noRule (f mp : Nat) (st : PState)
    (h1 : hasPrefixRule (curTok st).type = false) :
    parseExpression (f + 1 + 1) mp st =
      (none, addErr st (curTok st)
        ("no prefix parse rule for " ++ (curTok st).word)) := by
  simp only [parseExpression]
  rw [parsePrefixPos_noRule f st h1]

/-- The same failure at the expression-statement level: the diagnostic
is recorded, the offending token skipped, the statement kept with an
absent expression slot. -/
theorem parseExprStatement_noRule (f : Nat) (st : PState)
    (h1 : hasPrefixRule (curTok st).type = false) :
    parseExprStatement (f + 1 + 1 + 1) st =
      (some (.expressionStatement (curTok st) none),
        advTok (addErr st (curTok st)
          ("no prefix parse rule for " ++ (curTok st).word))) := by
  simp only [parseExprStatement]
  rw [parseExpression_noRule f NONE st h1]

/-- A no-prefix-rule token in expression position puts a diagnostic on
the list, and the rest of the pass can only append to it. -/
theorem noPrefixRule_err_aux :
    ∀ (k : Nat) (st : PState),
      hasPrefixRule (curTok st).type = false →
      (curTok st).type ≠ TokenType.LET →
      (curTok st).type ≠ TokenType.RET →
      (curTok st).type ≠ TokenType.IF →
      (curTok st).type ≠ TokenType.EOF →
      ∃ m, st.errs ++ [m] <+: (parseProgram (k + 1 + 1 + 1 + 1 + 1) st).2.errs := by
  intro k st h1 h2 h3 h4 h5
  rw [parseProgram_step (k + 1 + 1 + 1 + 1) st h5,
    parseStatement_defaults (k + 1 + 1 + 1) st h1 h2 h3 h4 h5,
    parseExprStatement_noRule k st h1]
  refine ⟨(curTok st).loc.source ++ ":" ++ toString (curTok st).loc.line ++ ":" ++
    toString (curTok st).loc.column ++ ": " ++
    ("no prefix parse rule for " ++ (curTok st).word), ?_⟩
  exact parseProgram_errs_monotone (k + 1 + 1 + 1 + 1)
    (advTok (addErr st (curTok st) ("no prefix parse rule for " ++ (curTok st).word)))

/-- Claim C8: when the input's expression position opens with a token
that has no prefix rule, the (total, fuel-dominated) parse still
returns, and the diagnostics list is non-empty. -/
theorem c8_no_prefix_rule_nonempty_errors :
    ∀ name input : String,
      hasPrefixRule ((lex name input).headD eofToken).type = false →
      ((lex name input).headD eofToken).type ≠ TokenType.LET →
      ((lex name input).headD eofToken).type ≠ TokenType.RET →
      ((lex name input).headD eofToken).type ≠ TokenType.IF →
      ((lex name input).headD eofToken).type ≠ TokenType.EOF →
      (Parse name input).2 ≠ [] := by
  intro name input h1 h2 h3 h4 h5
  simp only [Parse]
  rcases hp : parseProgram (parseFuel (lex name input)) ⟨lex name input, []⟩
    with ⟨ss, st⟩
  have hk : parseFuel (lex name input) =
      8 * (lex name input).length + 11 + 1 + 1 + 1 + 1 + 1 := by
    simp [parseFuel]
  rw [hk] at hp
  have key := noPrefixRule_err_aux (8 * (lex name input).length + 11)
    ⟨lex name input, []⟩ h1 h2 h3 h4 h5
  rw [hp] at key
  obtain ⟨m, t, hmt⟩ := key
  simp only [List.nil_append] at hmt
  intro hcon
  rw [hcon] at hmt
  simp at hmt

/-- Claim C8, witness: the bare input `")"` parses with a non-empty
diagnostics list. -/
theorem c8_no_prefix_rule_nonempty_errors_witness :
    (Parse "t" ")").2 ≠ [] :=
  c8_no_prefix_rule_nonempty_errors "t" ")"
    (by decide) (by decide) (by decide) (by decide) (by decide)

/-- Claim C3: parsing respects the documented precedence and left
associativity — `"a + b * c"` renders `"(a + (b * c))"`, `"-a * b"`
renders `"((-a) * b)"`, and `"a + b + c"` renders `"((a + b) + c)"`,
each with an empty diagnostics list. -/
theorem c3_precedence_and_associativity :
    (ParseExpression "t" "a + b * c" NONE).1.map exprString = some "(a + (b * c))" ∧
    (ParseExpression "t" "a + b * c" NONE).2 = [] ∧
    (ParseExpression "t" "-a * b" NONE).1.map exprString = some "((-a) * b)" ∧
    (ParseExpression "t" "-a * b" NONE).2 = [] ∧
    (ParseExpression "t" "a + b + c" NONE).1.map exprString = some "((a + b) + c)" ∧
    (ParseExpression "t" "a + b + c" NONE).2 = [] :=
  ⟨rfl, rfl, rfl, rfl, rfl, rfl⟩

/-- Claim C4: the `fn` declaration statement and the function-literal
initializer of a `let` yield the same parameter identifier list and the
same body statement structure (compared with source coordinates
erased), both with clean diagnostics. -/
theorem c4_shared_function_parsing :
    fnStmtParts (Parse "a" "fn add(x, y) { x + y; }").1 =
      letFnParts (Parse "b" "let f = fn (x, y) { x + y; };").1 ∧
    (fnStmtParts (Parse "a" "fn add(x, y) { x + y; }").1).isSome = true ∧
    (Parse "a" "fn add(x, y) { x + y; }").2 = [] ∧
    (Parse "b" "let f = fn (x, y) { x + y; };").2 = [] :=
  ⟨rfl, rfl, rfl, rfl⟩

/-- Claim C5: `"if x < y { x; } else if x > y { y; } else { x + y; }"`
parses to exactly one statement, an if whose else is an if whose own
else is a block, each branch holding its single source statement, with
no diagnostics. -/
theorem c5_if_elseif_else_chain :
    ifElseIfElseShape
      (Parse "t" "if x < y { x; } else if x > y { y; } else { x + y; }").1 = true ∧
    (Parse "t" "if x < y { x; } else if x > y { y; } else { x + y; }").2 = [] :=
  ⟨rfl, rfl⟩

/-- Claim C7: `LookUpKeyword` classifies exactly the seven keywords and
returns `IDENT` on every other string. -/
theorem c7_keyword_classification :
    (LookUpKeyword "fn" = TokenType.FN ∧
     LookUpKeyword "return" = TokenType.RET ∧
     LookUpKeyword "let" = TokenType.LET ∧
     LookUpKeyword "true" = TokenType.TRUE ∧
     LookUpKeyword "false" = TokenType.FALSE ∧
     LookUpKeyword "if" = TokenType.IF ∧
     LookUpKeyword "else" = TokenType.ELSE) ∧
    ∀ w : String, w ∉ ["fn", "return", "let", "true", "false", "if", "else"] →
      LookUpKeyword w = TokenType.IDENT := by
  refine ⟨⟨rfl, rfl, rfl, rfl, rfl, rfl, rfl⟩, ?_⟩
  intro w h
  simp only [List.mem_cons, List.not_mem_nil, or_false, not_or] at h
  obtain ⟨h1, h2, h3, h4, h5, h6, h7⟩ := h
  have e1 : (w == "fn") = false := beq_eq_false_iff_ne.mpr h1
  have e2 : (w == "return") = false := beq_eq_false_iff_ne.mpr h2
  have e3 : (w == "let") = false := beq_eq_false_iff_ne.mpr h3
  have e4 : (w == "true") = false := beq_eq_false_iff_ne.mpr h4
  have e5 : (w == "false") = false := beq_eq_false_iff_ne.mpr h5
  have e6 : (w == "if") = false := beq_eq_false_iff_ne.mpr h6
  have e7 : (w == "else") = false := beq_eq_false_iff_ne.mpr h7
  simp [LookUpKeyword, keywords, List.lookup, e1, e2, e3, e4, e5, e6, e7]

/-- Claim C7, witness: a word outside the keyword table classifies as
`IDENT`. -/
theorem c7_keyword_classification_witness :
    LookUpKeyword "foobar" = TokenType.IDENT :=
  c7_keyword_classification.2 "foobar" (by decide)

/-- Claim C9: `Program.TokenWord` agrees with `Program.String` on every
program; both are the in-order concatenation of the statements'
renderings, and both are empty on the empty program. -/
theorem c9_program_tokenword_eq_string :
    ∀ p : Program,
      programTokenWord p = programString p ∧
      programString p = (p.statements.map stmtString).foldr (fun a b => a ++ b) "" ∧
      programTokenWord ⟨[]⟩ = "" ∧
      programString ⟨[]⟩ = "" := by
  intro p
  refine ⟨?_, ?_, rfl, rfl⟩
  · rcases p with ⟨stmts⟩
    cases stmts with
    | nil => rfl
    | cons s rest => simp [programTokenWord, programString]
  · rcases p with ⟨stmts⟩
    show stmtsString stmts = _
    induction stmts with
    | nil => rfl
    | cons s rest ih => simpa [stmtsString] using congrArg (stmtString s ++ ·) ih

/-- Claim C10: with absent optional slots, `String()` stays total and
renders `let <ident>` without a semicolon, `return;` with one, and the
empty string for an empty expression statement. -/
theorem c10_string_total_on_nil_slots :
    ∀ (t1 t2 t3 : Token) (i : Identifier),
      stmtString (.letStatement t1 i none) = "let " ++ i.value ∧
      stmtString (.returnStatement t2 none) = "return;" ∧
      stmtString (.expressionStatement t3 none) = "" := by
  intro t1 t2 t3 i
  exact ⟨rfl, rfl, rfl⟩

end RoLang
